import Mathlib

/-!
Verification development for the chunking → retrieval → grounding pipeline of
the `physical-AI-humanoid-robotics` RAG backend.

Text is modelled as `List Char`; Python floats are modelled as rationals (`ℚ`);
fallible operations return `Option`/`Except`.  Each embedded definition mirrors
one function of the Python source (named in its doc comment); loops that the
source does not obviously terminate are given an explicit fuel parameter and
return `none` when the fuel is exhausted, so non-termination of the source loop
shows up as `= none` for every fuel.
-/

namespace RAGSpec

/-- Python whitespace (`str.strip`, `str.split`, regex `\s`), ASCII part:
space, tab, newline, carriage return, vertical tab, form feed. -/
def pyIsSpace (c : Char) : Bool :=
  c == ' ' || c == '\t' || c == '\n' || c == '\r' ||
  c == Char.ofNat 11 || c == Char.ofNat 12

/-- Python `str.strip()`: remove leading and trailing whitespace. -/
def pyStrip (l : List Char) : List Char :=
  ((l.dropWhile pyIsSpace).reverse.dropWhile pyIsSpace).reverse

/-- Normalize one Python slice index (default step) to a `ℕ` position. -/
def pyIndex (n : ℕ) (i : ℤ) : ℕ :=
  if i < 0 then ((n : ℤ) + i).toNat else min i.toNat n

/-- Python slice `l[a:b]` with possibly negative indices. -/
def pySlice (l : List Char) (a b : ℤ) : List Char :=
  (l.take (pyIndex l.length b)).drop (pyIndex l.length a)

/-!
## `ChunkingService._force_split` (src/backend/src/services/chunking_service.py)

```python
chunks = []
start = 0
while start < len(text):
    end = min(start + self.max_chunk_size, len(text))
    chunk = text[start:end].strip()
    if chunk:
        chunks.append(chunk)
    start = end - self.chunk_overlap
return chunks
```
The loop is modelled with fuel; `none` means the fuel ran out, i.e. the Python
loop has not finished within that many iterations.
-/

/-- One-to-one model of the `while` loop of `_force_split`; `start` is an `ℤ`
because `end - overlap` can go negative in Python. -/
def forceSplitGo (maxCS overlap : ℕ) (text : List Char) :
    ℕ → ℤ → List (List Char) → Option (List (List Char))
  | 0, _, _ => none
  | fuel + 1, start, chunks =>
    if start < (text.length : ℤ) then
      let e : ℤ := min (start + (maxCS : ℤ)) (text.length : ℤ)
      let chunk := pyStrip (pySlice text start e)
      forceSplitGo maxCS overlap text fuel (e - (overlap : ℤ))
        (if chunk ≠ [] then chunks ++ [chunk] else chunks)
    else
      some chunks

/-- `ChunkingService._force_split(text)` run for `fuel` loop iterations. -/
def force_split (maxCS overlap : ℕ) (text : List Char) (fuel : ℕ) :
    Option (List (List Char)) :=
  forceSplitGo maxCS overlap text fuel 0 []

/-!
## `ChunkingService` (src/backend/src/services/chunking.py)

Heading-aware chunker.  Module constants:
`MIN_CHUNK_SIZE = 400`, `MAX_CHUNK_SIZE = 800`, `OVERLAP_SIZE = 100`,
`MIN_CHUNK_WORDS = 50`.  The constructor parameters `min_chunk_size`,
`max_chunk_size`, `overlap_size` are carried in a configuration structure;
`MIN_CHUNK_WORDS` is a fixed module-level constant.
-/

def MIN_CHUNK_WORDS : ℕ := 50

/-- Constructor configuration of `chunking.ChunkingService`.  `min_chunk_size`
is stored by `__init__` but never consulted by the chunking methods. -/
structure ChunkingCfg where
  min_chunk_size : ℕ := 400
  max_chunk_size : ℕ := 800
  overlap_size : ℕ := 100

/-- `chunking.ContentChunk` (the Python `section` attribute is called
`sectionLabel` here because `section` is a Lean keyword). -/
structure ContentChunk where
  text : List Char
  file_path : List Char
  chapter : Option (List Char)
  sectionLabel : Option (List Char)
  heading_path : List (List Char)
  chunk_index : ℕ
  total_chunks : ℕ
  deriving DecidableEq, Repr

/-- Accumulator form of Python `str.split()` (split on whitespace runs,
discarding empty pieces); `acc` holds the current word reversed. -/
def pyWordsGo : List Char → List Char → List (List Char)
  | [], acc => if acc = [] then [] else [acc.reverse]
  | c :: cs, acc =>
    if pyIsSpace c then
      if acc = [] then pyWordsGo cs [] else acc.reverse :: pyWordsGo cs []
    else pyWordsGo cs (c :: acc)

/-- Python `text.split()` (no separator argument). -/
def pyWords (l : List Char) : List (List Char) := pyWordsGo l []

/-- Python `re.match(r'^(#{1,6})\s+(.+)$', line)` on a single newline-free
line, returning `(level, group(2))`.  Group 2 reflects the regex engine's
backtracking: `\s+` greedily eats the whitespace run after the hashes and
`(.+)` takes the rest; when everything after the hashes is whitespace, `\s+`
gives back one character so `(.+)` matches that final whitespace character. -/
def matchHeading (line : List Char) : Option (ℕ × List Char) :=
  let k := (line.takeWhile (· == '#')).length
  let rest := line.drop k
  if 1 ≤ k ∧ k ≤ 6 then
    match rest with
    | [] => none
    | c :: cs =>
      if pyIsSpace c then
        let tail := rest.dropWhile pyIsSpace
        if tail ≠ [] then some (k, tail)
        else if cs ≠ [] then some (k, rest.drop (rest.length - 1))
        else none
      else none
  else none

/-- One section produced by `_split_by_headings`: raw text plus the heading
path in force at its start. -/
structure MdSection where
  text : List Char
  heading_path : List (List Char)
  deriving DecidableEq, Repr

/-- The line loop of `_split_by_headings`: `cur` is `current_section` (text and
heading path), `hs` is `current_headings`, `acc` the finished sections. -/
def splitByHeadingsGo :
    List (List Char) → (List Char × List (List Char)) → List (List Char) →
      List MdSection → List MdSection
  | [], cur, _, acc =>
    if pyStrip cur.1 ≠ [] then acc ++ [⟨cur.1, cur.2⟩] else acc
  | line :: rest, cur, hs, acc =>
    match matchHeading line with
    | some (level, g2) =>
      let acc' := if pyStrip cur.1 ≠ [] then acc ++ [⟨cur.1, cur.2⟩] else acc
      let ht := pyStrip g2
      let hs' := hs.take (level - 1) ++ [ht]
      splitByHeadingsGo rest (line ++ ['\n'], hs') hs' acc'
    | none => splitByHeadingsGo rest (cur.1 ++ line ++ ['\n'], cur.2) hs acc

/-- `ChunkingService._split_by_headings(content)`. -/
def split_by_headings (content : List Char) : List MdSection :=
  let secs := splitByHeadingsGo (List.splitOn '\n' content) ([], []) [] []
  if secs = [] then [⟨content, []⟩] else secs

/-- `" ".join(chunk_words)`. -/
def joinWords : List (List Char) → List Char
  | [] => []
  | [w] => w
  | w :: ws => w ++ ' ' :: joinWords ws

/-- The `while start_idx < word_count` loop of `_chunk_section`, with fuel.
Each pass takes the window `words[start_idx:end_idx]`, keeps it only when it
has at least `MIN_CHUNK_WORDS` words, and advances `start_idx` by
`max_chunk_size - overlap_size` (truncated subtraction: when
`overlap_size ≥ max_chunk_size` the Python loop never advances and never
terminates, matching fuel exhaustion here). -/
def chunkSectionGo (cfg : ChunkingCfg) (fp : List Char)
    (chap sec : Option (List Char)) (hp : List (List Char))
    (words : List (List Char)) :
    ℕ → ℕ → ℕ → List ContentChunk → Option (List ContentChunk)
  | 0, _, _, _ => none
  | fuel + 1, start, ci, acc =>
    if start < words.length then
      let e := min (start + cfg.max_chunk_size) words.length
      let cw := (words.take e).drop start
      let step :=
        if MIN_CHUNK_WORDS ≤ cw.length then
          (acc ++ [⟨joinWords cw, fp, chap, sec, hp, ci, 1⟩], ci + 1)
        else (acc, ci)
      chunkSectionGo cfg fp chap sec hp words fuel
        (start + (cfg.max_chunk_size - cfg.overlap_size)) step.2 step.1
    else some acc

/-- `ChunkingService._chunk_section(text, file_path, chapter, section,
heading_path)`.  A section of at most `max_chunk_size` words is emitted whole
(or dropped when under `MIN_CHUNK_WORDS` words); larger sections go through
the overlapping-window loop.  The fuel `words.length + 1` suffices whenever
the stride `max_chunk_size - overlap_size` is positive. -/
def chunk_section (cfg : ChunkingCfg) (fp : List Char)
    (chap sec : Option (List Char)) (hp : List (List Char))
    (text : List Char) : Option (List ContentChunk) :=
  let words := pyWords text
  if words.length ≤ cfg.max_chunk_size then
    if MIN_CHUNK_WORDS ≤ words.length then
      some [⟨text, fp, chap, sec, hp, 0, 1⟩]
    else some []
  else
    chunkSectionGo cfg fp chap sec hp words (words.length + 1) 0 0 []

/-- Frontmatter keys consulted by `chunk_content`. -/
structure Frontmatter where
  title : Option (List Char)
  sidebar_label : Option (List Char)

/-- `ChunkingService.chunk_content(content, file_path, frontmatter)`:
split into sections, chunk each section, concatenate, then backfill
`total_chunks` on every chunk in a second pass. -/
def chunk_content (cfg : ChunkingCfg) (content : List Char) (fp : List Char)
    (fm : Option Frontmatter) : Option (List ContentChunk) :=
  if pyStrip content = [] then some []
  else
    let chap := fm.bind (·.title)
    let sec := fm.bind (·.sidebar_label)
    let secs := split_by_headings content
    (secs.mapM (fun s => chunk_section cfg fp chap sec s.heading_path s.text)).map
      (fun css =>
        let all := css.flatten
        all.map (fun c => { c with total_chunks := all.length }))

/-!
## `RetrievalService` (src/backend/src/services/retrieval.py)

Similarity scores (Python floats) are modelled as rationals.  The Qdrant
search results are an input parameter (the vector index is an external
collaborator); each raw hit carries a score and an optional-field payload,
with `payload.get(key, default)` modelled by `Option.getD`.
-/

/-- `retrieval.RetrievedChunk` (the Python `section` attribute is called
`sectionLabel`; `section` is a Lean keyword). -/
structure RetrievedChunk where
  chunk_id : List Char
  chunk_text : List Char
  file_path : List Char
  chapter : Option (List Char)
  sectionLabel : Option (List Char)
  heading_path : List (List Char)
  source_url : List Char
  chunk_index : ℕ
  total_chunks : ℕ
  similarity_score : ℚ
  rank : ℕ
  deriving DecidableEq

/-- One raw Qdrant point: score plus payload fields (`none` = key absent). -/
structure QdrantHit where
  score : ℚ
  chunk_id : Option (List Char) := none
  chunk_text : Option (List Char) := none
  file_path : Option (List Char) := none
  chapter : Option (List Char) := none
  sectionLabel : Option (List Char) := none
  heading_path : Option (List (List Char)) := none
  source_url : Option (List Char) := none
  chunk_index : Option ℕ := none
  total_chunks : Option ℕ := none

/-- The body of `retrieve`'s conversion loop: one hit at position `rank`
(1-based), with the payload defaults of the source. -/
def hitToChunk (rank : ℕ) (h : QdrantHit) : RetrievedChunk :=
  { chunk_id := h.chunk_id.getD ("unknown_" ++ Nat.repr rank).data
    chunk_text := h.chunk_text.getD []
    file_path := h.file_path.getD []
    chapter := h.chapter
    sectionLabel := h.sectionLabel
    heading_path := h.heading_path.getD []
    source_url := h.source_url.getD []
    chunk_index := h.chunk_index.getD 0
    total_chunks := h.total_chunks.getD 1
    similarity_score := h.score
    rank := rank }

/-- `for rank, hit in enumerate(search_results.points, start=1)`. -/
def rankHitsFrom (r : ℕ) : List QdrantHit → List RetrievedChunk
  | [] => []
  | h :: t => hitToChunk r h :: rankHitsFrom (r + 1) t

/-- `RetrievalService.retrieve(query, top_k, score_threshold)`: input
validation (`ValueError` modelled as `Except.error`) followed by the
conversion of the index's hits; the hits stand for
`qdrant_client.query_points(...).points`. -/
def retrieve (query : List Char) (top_k : ℕ) (score_threshold : ℚ)
    (hits : List QdrantHit) : Except (List Char) (List RetrievedChunk) :=
  if pyStrip query = [] then .error "Query cannot be empty".data
  else if ¬(1 ≤ top_k ∧ top_k ≤ 10) then
    .error "top_k must be between 1 and 10".data
  else if ¬(0 ≤ score_threshold ∧ score_threshold ≤ 1) then
    .error "score_threshold must be between 0.0 and 1.0".data
  else .ok (rankHitsFrom 1 hits)

/-- The rank-rewriting loop of `retrieve_with_reranking`
(`for rank, chunk in enumerate(reranked, start=1): chunk.rank = rank`). -/
def rerankFrom (r : ℕ) : List RetrievedChunk → List RetrievedChunk
  | [] => []
  | c :: t => { c with rank := r } :: rerankFrom (r + 1) t

/-- `RetrievalService.retrieve_with_reranking(query, top_k, initial_k,
score_threshold)`: first-stage retrieval of `initial_k` hits, truncation to
`top_k`, then rank reassignment. -/
def retrieve_with_reranking (query : List Char) (top_k initial_k : ℕ)
    (score_threshold : ℚ) (hits : List QdrantHit) :
    Except (List Char) (List RetrievedChunk) :=
  (retrieve query initial_k score_threshold hits).map
    (fun chunks => rerankFrom 1 (chunks.take top_k))

/-- `RetrievalService.calculate_confidence(chunks)`: 0.0 for the empty list,
otherwise `0.6 * top + 0.3 * avg + 0.1 * min(count/5, 1)` capped at 1.0 via
`min(confidence, 1.0)`. -/
def calculate_confidence (chunks : List RetrievedChunk) : ℚ :=
  match chunks with
  | [] => 0
  | c :: _ =>
    let top_score := c.similarity_score
    let avg_score := (chunks.map (·.similarity_score)).sum / chunks.length
    let count_factor := min ((chunks.length : ℚ) / 5) 1
    min (top_score * (6/10) + avg_score * (3/10) + count_factor * (1/10)) 1

/-!
## `GenerationService` (src/backend/src/services/generation.py)

The Gemini model is an external collaborator and enters the embedding as an
oracle function from the query and context chunks to the answer text.
-/

/-- `generation.SourceCitation` (dataclass: chapter, section, source_url,
relevance_score). -/
structure GSourceCitation where
  chapter : List Char
  sectionLabel : Option (List Char)
  source_url : List Char
  relevance_score : ℚ
  deriving DecidableEq

/-- `generation.GeneratedResponse`. -/
structure GeneratedResponse where
  answer : List Char
  sources : List GSourceCitation
  confidence : ℚ
  model_used : List Char
  deriving DecidableEq

/-- The exact refusal answer of `GenerationService.generate`. -/
def refusalAnswer : List Char :=
  ("I don't have enough information in the book to answer this question " ++
   "confidently. Could you rephrase your question or ask about a different " ++
   "topic covered in the book?").data

/-- The dedup-and-collect loop of `GenerationService._extract_sources`:
`seen` holds the `(chunk.chapter or \"\", chunk.source_url)` keys already
emitted (Python falsy check: a `None` or empty chapter both give `""`). -/
def extractSourcesGo :
    List (List Char × List Char) → List GSourceCitation → List RetrievedChunk →
      List GSourceCitation
  | _, acc, [] => acc
  | seen, acc, chunk :: rest =>
    let key := (chunk.chapter.getD [], chunk.source_url)
    if seen.contains key then extractSourcesGo seen acc rest
    else
      let ch := chunk.chapter.getD []
      extractSourcesGo (key :: seen)
        (acc ++ [⟨if ch = [] then "Unknown Chapter".data else ch,
                  chunk.sectionLabel, chunk.source_url,
                  chunk.similarity_score⟩]) rest

/-- `GenerationService._extract_sources(chunks)`: deduplicate by
`(chapter, source_url)`, then stable-sort by descending relevance and keep
the top 5. -/
def extract_sources (chunks : List RetrievedChunk) : List GSourceCitation :=
  ((extractSourcesGo [] [] chunks).mergeSort
    (fun a b => decide (b.relevance_score ≤ a.relevance_score))).take 5

/-- `GenerationService.generate(query, chunks, confidence)`.  `llm` is the
Gemini oracle (`self.model.generate_content`); `model_name` the configured
model.  A `ValueError` for an empty query becomes `Except.error`; the
low-confidence/empty-context branch returns the refusal response without
consulting `llm`. -/
def generate (llm : List Char → List RetrievedChunk → List Char)
    (model_name : List Char) (query : List Char)
    (chunks : List RetrievedChunk) (confidence : ℚ) :
    Except (List Char) GeneratedResponse :=
  if pyStrip query = [] then .error "Query cannot be empty".data
  else if confidence < 1/2 ∨ chunks = [] then
    .ok ⟨refusalAnswer, [], confidence, model_name⟩
  else
    .ok ⟨llm query chunks, extract_sources chunks, confidence, model_name⟩

/-!
## `RAGService.extract_citations` (src/backend/src/services/rag_service.py)
and helpers from src/backend/src/utils/text_processing.py.
-/

/-- `text_processing.truncate_text(text, max_length, suffix)`; the slice uses
Python semantics (`truncate_at` may be negative when `max_length` is smaller
than the suffix). -/
def truncate_text (text : List Char) (max_length : ℕ) (suffix : List Char) :
    List Char :=
  if text.length ≤ max_length then text
  else pySlice text 0 ((max_length : ℤ) - suffix.length) ++ suffix

/-- Digit run of a Python `int()` literal: decimal digits with single
underscores allowed between digits. -/
def pyIntDigitsGo (acc : ℕ) : List Char → Option ℕ
  | [] => some acc
  | '_' :: d :: t =>
    if d.isDigit then pyIntDigitsGo (acc * 10 + (d.toNat - 48)) t else none
  | ['_'] => none
  | d :: t =>
    if d.isDigit then pyIntDigitsGo (acc * 10 + (d.toNat - 48)) t else none

/-- Parse a non-empty digit run (no leading underscore). -/
def pyIntDigits : List Char → Option ℕ
  | [] => none
  | '_' :: _ => none
  | d :: t => if d.isDigit then pyIntDigitsGo (d.toNat - 48) t else none

/-- Python `int(s)` on a decimal string: surrounding whitespace stripped,
optional sign, then digits (underscore separators allowed); `none` models
`ValueError`. -/
def pyInt (s : List Char) : Option ℤ :=
  match pyStrip s with
  | '+' :: r => (pyIntDigits r).map (fun n => (n : ℤ))
  | '-' :: r => (pyIntDigits r).map (fun n => -(n : ℤ))
  | r => (pyIntDigits r).map (fun n => (n : ℤ))

/-- `models.chunk.DocumentChunk` (the fields `extract_citations` reads). -/
structure DocumentChunk where
  chunk_id : List Char
  content_text : List Char
  page_url : List Char
  page_title : List Char
  deriving DecidableEq

/-- `models.query_session.SourceCitation`. -/
structure SourceCitation where
  page_url : List Char
  page_title : List Char
  chunk_text : List Char
  relevance_score : ℚ
  deriving DecidableEq

/-- One Cohere citation object; `document_ids` is its list of document-index
strings (only the first entry is consulted by the code). -/
structure CohereCitation where
  document_ids : List (List Char)
  deriving DecidableEq

/-- The dict comprehension `{r["payload"]["chunk_id"]: r["score"] ...}`
followed by `.get(chunk_id, 0.0)`: last binding wins. -/
def scoreLookup (results : List (List Char × ℚ)) (cid : List Char) : ℚ :=
  ((results.reverse.find? (fun r => r.1 == cid)).map (·.2)).getD 0

/-- Parsing of one Cohere document id: `'doc_N' -> N` via
`doc_id_str.split('_')[1]`, else `int(doc_id_str)`; `none` models the caught
`(ValueError, IndexError)`. -/
def parseDocId (s : List Char) : Option ℤ :=
  if s.take 4 = "doc_".data then
    match List.splitOn '_' s with
    | _ :: x :: _ => pyInt x
    | _ => none
  else pyInt s

/-- The citation built for a resolved chunk in the Cohere branch. -/
def citationFromChunk (results : List (List Char × ℚ)) (chunk : DocumentChunk) :
    SourceCitation :=
  ⟨chunk.page_url, chunk.page_title,
   truncate_text chunk.content_text 300 "...".data,
   scoreLookup results chunk.chunk_id⟩

/-- The Cohere-citation loop of `extract_citations`: each citation's first
document id is parsed; unparseable ids, out-of-range indices and
already-seen URLs are skipped; otherwise the matching chunk's citation is
appended and its URL marked seen. -/
def extractCohereGo (chunks : List DocumentChunk)
    (results : List (List Char × ℚ)) :
    List (List Char) → List SourceCitation → List CohereCitation →
      List SourceCitation
  | _, acc, [] => acc
  | seen, acc, cc :: rest =>
    match cc.document_ids with
    | [] => extractCohereGo chunks results seen acc rest
    | did :: _ =>
      match parseDocId did with
      | none => extractCohereGo chunks results seen acc rest
      | some idx =>
        if idx < 0 then extractCohereGo chunks results seen acc rest
        else
          match chunks[idx.toNat]? with
          | none => extractCohereGo chunks results seen acc rest
          | some chunk =>
            if seen.contains chunk.page_url then
              extractCohereGo chunks results seen acc rest
            else
              extractCohereGo chunks results (chunk.page_url :: seen)
                (acc ++ [citationFromChunk results chunk]) rest

/-- The fallback loop of `extract_citations`: every chunk becomes a citation
unless its URL was already seen or its truncated text is blank; note the URL
is marked seen *before* the blank-text check. -/
def extractFallbackGo (results : List (List Char × ℚ)) :
    List (List Char) → List SourceCitation → List DocumentChunk →
      List SourceCitation
  | _, acc, [] => acc
  | seen, acc, chunk :: rest =>
    if seen.contains chunk.page_url then extractFallbackGo results seen acc rest
    else
      let preview := truncate_text chunk.content_text 300 "...".data
      if pyStrip preview = [] then
        extractFallbackGo results (chunk.page_url :: seen) acc rest
      else
        let title := if pyStrip chunk.page_title = [] then "Untitled".data
          else chunk.page_title
        extractFallbackGo results (chunk.page_url :: seen)
          (acc ++ [⟨chunk.page_url, title, preview,
                    scoreLookup results chunk.chunk_id⟩]) rest

/-- `RAGService.extract_citations(chunks, cohere_citations, search_results)`:
the Cohere branch when the generator returned citations, otherwise the
all-chunks fallback. -/
def extract_citations (chunks : List DocumentChunk)
    (cohere_citations : List CohereCitation)
    (results : List (List Char × ℚ)) : List SourceCitation :=
  if cohere_citations ≠ [] then
    extractCohereGo chunks results [] [] cohere_citations
  else extractFallbackGo results [] [] chunks

/-!
## `CitationAgent.generate_citations` (src/backend/src/agents/citation_agent.py)
and `build_citation_url` (src/backend/src/utils/docusaurus_anchors.py).
-/

/-- Python `str.replace(old, new)`: replace every occurrence of `old`
(scanning left to right) by `new`. -/
def pyReplace (old new : List Char) : List Char → List Char
  | [] => []
  | c :: cs =>
    if old ≠ [] ∧ (c :: cs).take old.length = old then
      new ++ pyReplace old new ((c :: cs).drop old.length)
    else c :: pyReplace old new cs
termination_by l => l.length
decreasing_by
  · rename_i h
    simp only [List.length_drop, List.length_cons]
    have : old.length ≠ 0 := by
      intro h0
      exact h.1 (List.length_eq_zero.mp h0)
    omega
  · simp

/-- `docusaurus_anchors.build_citation_url(file_path, anchor, base_path)`:
strip the `.md` extension, normalise backslashes, and join
`base_path / page_path # anchor`. -/
def build_citation_url (file_path anchor base_path : List Char) : List Char :=
  let page_path := pyReplace "\\".data "/".data (pyReplace ".md".data [] file_path)
  base_path ++ "/".data ++ page_path ++ "#".data ++ anchor

/-- `models.Citation` as used by the citation agent. -/
structure AgentCitation where
  title : List Char
  anchor : List Char
  url : List Char
  deriving DecidableEq

/-- The source-chunk dictionary fields read by `generate_citations`
(`dict.get` defaults applied by the caller loop). -/
structure AgentChunk where
  document_title : Option (List Char) := none
  section_anchor : Option (List Char) := none
  file_path : Option (List Char) := none

/-- The loop of `CitationAgent.generate_citations`: one citation per chunk,
skipping chunks whose `section_anchor` was already seen. -/
def generateCitationsGo :
    List (List Char) → List AgentCitation → List AgentChunk →
      List AgentCitation
  | _, acc, [] => acc
  | seen, acc, chunk :: rest =>
    let anchor := chunk.section_anchor.getD []
    if seen.contains anchor then generateCitationsGo seen acc rest
    else
      generateCitationsGo (anchor :: seen)
        (acc ++ [⟨chunk.document_title.getD "Unknown Document".data, anchor,
                  build_citation_url (chunk.file_path.getD []) anchor
                    "/docs".data⟩]) rest

/-- `CitationAgent.generate_citations(answer, source_chunks)` (the answer
text and elapsed-time bookkeeping do not influence the citation list). -/
def generate_citations (source_chunks : List AgentChunk) : List AgentCitation :=
  generateCitationsGo [] [] source_chunks

/-!
## `generate_anchor` (src/backend/src/utils/docusaurus_anchors.py)

```python
text = re.sub(r"[*`_~]", "", heading_text)
text = re.sub(r"[^a-zA-Z0-9\s-]", "", text)
text = text.lower()
text = re.sub(r"\s+", "-", text)
text = re.sub(r"-+", "-", text)
text = text.strip("-")
```
`str.lower` is modelled on its ASCII action (after the second filter only
ASCII alphanumerics, whitespace and hyphens remain, so nothing else reaches
it).
-/

/-- ASCII action of Python `str.lower`. -/
def pyToLower (c : Char) : Char :=
  if 65 ≤ c.toNat ∧ c.toNat ≤ 90 then Char.ofNat (c.toNat + 32) else c

/-- The markdown-formatting characters removed first: `*`, backtick, `_`,
`~`. -/
def isMdFormatChar (c : Char) : Bool :=
  c == '*' || c == Char.ofNat 96 || c == '_' || c == '~'

/-- Regex `[a-zA-Z0-9]`. -/
def isAsciiAlphaNum (c : Char) : Bool :=
  (65 ≤ c.toNat && c.toNat ≤ 90) || (97 ≤ c.toNat && c.toNat ≤ 122) ||
    (48 ≤ c.toNat && c.toNat ≤ 57)

/-- `re.sub(p+, r, text)` for a character class `p`: every maximal run of
`p`-characters becomes the single character `r`. -/
def subRuns (p : Char → Bool) (r : Char) : List Char → List Char
  | [] => []
  | c :: cs =>
    if p c then r :: subRuns p r (cs.dropWhile p)
    else c :: subRuns p r cs
termination_by l => l.length
decreasing_by
  · simp only [List.length_cons]
    exact Nat.lt_succ_of_le (List.dropWhile_suffix p).length_le
  · simp

/-- Python `str.strip(r)` for a single strip character. -/
def pyStripChar (r : Char) (l : List Char) : List Char :=
  ((l.dropWhile (· == r)).reverse.dropWhile (· == r)).reverse

/-- `docusaurus_anchors.generate_anchor(heading_text)`. -/
def generate_anchor (heading_text : List Char) : List Char :=
  let t1 := heading_text.filter (fun c => !(isMdFormatChar c))
  let t2 := t1.filter (fun c => isAsciiAlphaNum c || pyIsSpace c || c == '-')
  let t3 := t2.map pyToLower
  let t4 := subRuns pyIsSpace '-' t3
  let t5 := subRuns (· == '-') '-' t4
  pyStripChar '-' t5

end RAGSpec

namespace RAGSpec

/-- On a 900-character delimiter-free input, the `_force_split` loop's `start`
variable reaches 800 and then stays at `min (800+800) 900 - 100 = 800` forever. -/
theorem forceSplitGo_stuck :
    ∀ fuel acc,
      forceSplitGo 800 100 (List.replicate 900 'a') fuel 800 acc = none := by
  intro fuel
  induction fuel with
  | zero => intro acc; rfl
  | succ n ih =>
    intro acc
    rw [forceSplitGo]
    simp only [List.length_replicate]
    norm_num
    exact ih _

/-! ### Lemmas about `pyWords` and `joinWords` -/

/-- Every word produced by the split loop is non-empty and whitespace-free. -/
theorem pyWordsGo_words (l : List Char) :
    ∀ acc, (∀ c ∈ acc, pyIsSpace c = false) →
      ∀ w ∈ pyWordsGo l acc, w ≠ [] ∧ ∀ c ∈ w, pyIsSpace c = false := by
  induction l with
  | nil =>
    intro acc hacc w hw
    rw [pyWordsGo] at hw
    by_cases h : acc = []
    · simp [h] at hw
    · simp only [h, if_false] at hw
      simp only [List.mem_singleton] at hw
      subst hw
      refine ⟨by simpa using h, ?_⟩
      intro c hc
      exact hacc c (by simpa using hc)
  | cons c cs ih =>
    intro acc hacc w hw
    rw [pyWordsGo] at hw
    by_cases hsp : pyIsSpace c
    · simp only [hsp, if_true] at hw
      by_cases h : acc = []
      · simp only [h, if_true] at hw
        exact ih [] (by simp) w hw
      · simp only [h, if_false] at hw
        rcases List.mem_cons.mp hw with h1 | h1
        · subst h1
          refine ⟨by simpa using h, ?_⟩
          intro d hd
          exact hacc d (by simpa using hd)
        · exact ih [] (by simp) w h1
    · simp only [hsp, if_false] at hw
      refine ih (c :: acc) ?_ w hw
      intro d hd
      rcases List.mem_cons.mp hd with h1 | h1
      · subst h1; simpa using hsp
      · exact hacc d h1

/-- Every word of `pyWords l` is non-empty and whitespace-free. -/
theorem pyWords_words (l : List Char) :
    ∀ w ∈ pyWords l, w ≠ [] ∧ ∀ c ∈ w, pyIsSpace c = false :=
  pyWordsGo_words l [] (by simp)

/-- Scanning a whitespace-free block accumulates it verbatim. -/
theorem pyWordsGo_append_word (w : List Char)
    (hw : ∀ c ∈ w, pyIsSpace c = false) (l : List Char) :
    ∀ acc, pyWordsGo (w ++ l) acc = pyWordsGo l (w.reverse ++ acc) := by
  induction w with
  | nil => intro acc; simp
  | cons c cs ih =>
    intro acc
    have hc : pyIsSpace c = false := hw c (by simp)
    rw [List.cons_append, pyWordsGo]
    simp only [hc, if_false]
    rw [ih (fun d hd => hw d (by simp [hd])) (c :: acc)]
    simp

/-- Splitting a single-space join of non-empty whitespace-free words recovers
exactly those words. -/
theorem pyWords_joinWords :
    ∀ ws : List (List Char),
      (∀ w ∈ ws, w ≠ [] ∧ ∀ c ∈ w, pyIsSpace c = false) →
      pyWords (joinWords ws) = ws := by
  intro ws
  induction ws with
  | nil => intro _; rfl
  | cons w rest ih =>
    intro h
    obtain ⟨hw1, hw2⟩ := h w (by simp)
    match rest with
    | [] =>
      show pyWords (joinWords [w]) = [w]
      have : joinWords [w] = w := rfl
      rw [this, pyWords, show w = w ++ ([] : List Char) by simp,
        pyWordsGo_append_word w hw2 [] []]
      rw [pyWordsGo]
      simp [hw1]
    | r :: rs =>
      have hjoin : joinWords (w :: r :: rs) = w ++ ' ' :: joinWords (r :: rs) := rfl
      rw [pyWords, hjoin, pyWordsGo_append_word w hw2 _ []]
      rw [pyWordsGo]
      have hsp : pyIsSpace ' ' = true := by decide
      simp only [hsp, if_true, List.append_nil]
      have hne : w.reverse ≠ [] := by simpa using hw1
      simp only [hne, if_false, List.reverse_reverse]
      have := ih (fun u hu => h u (by simp [hu]))
      rw [show pyWordsGo (joinWords (r :: rs)) [] = pyWords (joinWords (r :: rs)) from rfl,
        this]

/-! ### C2: chunk size bounds of the heading-aware chunker -/

/-- Word-count bounds every emitted chunk satisfies: at least the fixed
`MIN_CHUNK_WORDS` floor and at most `max_chunk_size` words. -/
def wordBounded (maxCS : ℕ) (c : ContentChunk) : Prop :=
  MIN_CHUNK_WORDS ≤ (pyWords c.text).length ∧ (pyWords c.text).length ≤ maxCS

theorem chunkSectionGo_bounds (cfg : ChunkingCfg) (fp : List Char)
    (chap sec : Option (List Char)) (hp : List (List Char))
    (words : List (List Char))
    (hwords : ∀ w ∈ words, w ≠ [] ∧ ∀ c ∈ w, pyIsSpace c = false) :
    ∀ fuel start ci acc cs,
      chunkSectionGo cfg fp chap sec hp words fuel start ci acc = some cs →
      (∀ c ∈ acc, wordBounded cfg.max_chunk_size c) →
      ∀ c ∈ cs, wordBounded cfg.max_chunk_size c := by
  intro fuel
  induction fuel with
  | zero =>
    intro start ci acc cs h
    exact absurd h (by rw [chunkSectionGo]; simp)
  | succ n ih =>
    intro start ci acc cs h hacc
    rw [chunkSectionGo] at h
    by_cases hlt : start < words.length
    · simp only [hlt, if_true] at h
      set e := min (start + cfg.max_chunk_size) words.length with he
      set cw := (words.take e).drop start with hcw
      by_cases hmin : MIN_CHUNK_WORDS ≤ cw.length
      · simp only [← he, ← hcw, hmin, if_true] at h
        refine ih _ _ _ _ h ?_
        intro c hc
        rcases List.mem_append.mp hc with h1 | h1
        · exact hacc c h1
        · have hc1 : c = ⟨joinWords cw, fp, chap, sec, hp, ci, 1⟩ := by
            simpa using h1
          subst hc1
          have hsub : ∀ u ∈ cw, u ≠ [] ∧ ∀ d ∈ u, pyIsSpace d = false := by
            intro u hu
            exact hwords u (List.take_subset e words (List.drop_subset start _ hu))
          have hrt : pyWords (joinWords cw) = cw := pyWords_joinWords cw hsub
          constructor
          · show MIN_CHUNK_WORDS ≤ (pyWords (joinWords cw)).length
            rw [hrt]; exact hmin
          · show (pyWords (joinWords cw)).length ≤ cfg.max_chunk_size
            rw [hrt, hcw]
            have h1 : e ≤ start + cfg.max_chunk_size := min_le_left _ _
            have h2 : e ≤ words.length := min_le_right _ _
            simp only [List.length_drop, List.length_take]
            omega
      · simp only [← he, ← hcw, hmin, if_false] at h
        exact ih _ _ _ _ h hacc
    · simp only [hlt, if_false, Option.some.injEq] at h
      subst h
      exact hacc

/-- C2 (amended): in the heading-aware chunker, every chunk emitted by
`_chunk_section` has word count within `[MIN_CHUNK_WORDS, max_chunk_size]`
(all chunks, not only non-final ones): word windows below the fixed 50-word
floor are dropped, but `min_chunk_size` is never consulted, so chunks shorter
than `min_chunk_size` may appear anywhere in a document's output. -/
theorem chunk_section_word_bounds (cfg : ChunkingCfg) (fp : List Char)
    (chap sec : Option (List Char)) (hp : List (List Char))
    (text : List Char) (cs : List ContentChunk)
    (h : chunk_section cfg fp chap sec hp text = some cs) :
    ∀ c ∈ cs, MIN_CHUNK_WORDS ≤ (pyWords c.text).length ∧
      (pyWords c.text).length ≤ cfg.max_chunk_size := by
  rw [chunk_section] at h
  by_cases hle : (pyWords text).length ≤ cfg.max_chunk_size
  · simp only [hle, if_true] at h
    by_cases hmin : MIN_CHUNK_WORDS ≤ (pyWords text).length
    · simp only [hmin, if_true, Option.some.injEq] at h
      subst h
      intro c hc
      have hc1 : c = ⟨text, fp, chap, sec, hp, 0, 1⟩ := by simpa using hc
      subst hc1
      exact ⟨hmin, hle⟩
    · simp only [hmin, if_false, Option.some.injEq] at h
      subst h
      intro c hc
      simp at hc
  · simp only [hle, if_false] at h
    exact chunkSectionGo_bounds cfg fp chap sec hp (pyWords text)
      (pyWords_words text) _ _ _ _ _ h (by simp)

/-! ### Concrete documents used as test inputs -/

/-- Sixty one-letter words joined by single spaces. -/
def w60 : List Char := joinWords (List.replicate 60 ['w'])

/-- A document with two level-1 sections of 62 words each (every section
well above the 50-word floor, but far below `min_chunk_size = 400`). -/
def twoSectionDoc : List Char :=
  "# A\n\n".data ++ w60 ++ "\n\n# B\n".data ++ w60

/-- The spec's C9 scenario document. -/
def c9doc : List Char :=
  "# A\n\nPara one text here.\n\n## B\nPara two text here.".data

/-- The C9 scenario document with each section padded to 62 words so that it
clears the fixed 50-word floor. -/
def c9padded : List Char :=
  "# A\n\n".data ++ w60 ++ "\n\n## B\n".data ++ w60

/-- A generous configuration: huge `max_chunk_size`, no lower bound. -/
def generousCfg : ChunkingCfg := ⟨0, 10000, 100⟩

/-- C2 counterexample: with the default configuration
(`min_chunk_size = 400`), the two-section document produces two chunks of
126 and 124 characters (62 words each).  The first chunk is not the last
chunk of the document yet its length is far below `min_chunk_size`, so the
claimed `[min_chunk_size, max_chunk_size]` bound for non-final chunks fails;
the under-`min_chunk_size` chunks are retained, not dropped. -/
theorem chunk_length_claim_fails :
    ((chunk_content {} twoSectionDoc "f.md".data none).getD []).map
        (fun c => c.text.length) = [126, 124] ∧ 126 < 400 := by
  constructor
  · rfl
  · decide

/-- C8 counterexample: chunk indices restart at 0 for every section, so the
second chunk of the two-section document has `chunk_index = 0`, not its
position 1 in the document's output sequence. -/
theorem chunk_index_claim_fails :
    ((chunk_content {} twoSectionDoc "f.md".data none).getD []).map
        (fun c => c.chunk_index) = [0, 0] ∧ [0, 0] ≠ [0, 1] := by
  constructor
  · rfl
  · decide

/-! ### C8 (amended): per-section indices and backfilled totals -/

theorem chunkSectionGo_indices (cfg : ChunkingCfg) (fp : List Char)
    (chap sec : Option (List Char)) (hp : List (List Char))
    (words : List (List Char)) :
    ∀ fuel start ci acc cs,
      chunkSectionGo cfg fp chap sec hp words fuel start ci acc = some cs →
      (∀ k (hk : k < acc.length), (acc.get ⟨k, hk⟩).chunk_index = k) →
      ci = acc.length →
      ∀ k (hk : k < cs.length), (cs.get ⟨k, hk⟩).chunk_index = k := by
  intro fuel
  induction fuel with
  | zero =>
    intro start ci acc cs h
    exact absurd h (by rw [chunkSectionGo]; simp)
  | succ n ih =>
    intro start ci acc cs h hacc hci
    rw [chunkSectionGo] at h
    by_cases hlt : start < words.length
    · simp only [hlt, if_true] at h
      set e := min (start + cfg.max_chunk_size) words.length with he
      set cw := (words.take e).drop start with hcw
      by_cases hmin : MIN_CHUNK_WORDS ≤ cw.length
      · simp only [← he, ← hcw, hmin, if_true] at h
        refine ih _ _ _ _ h ?_ ?_
        · intro k hk
          have hlen : (acc ++ [(⟨joinWords cw, fp, chap, sec, hp, ci, 1⟩ :
              ContentChunk)]).length = acc.length + 1 := by simp
          by_cases hk2 : k < acc.length
          · rw [List.get_eq_getElem, List.getElem_append_left hk2]
            exact hacc k hk2
          · have hkeq : k = acc.length := by omega
            subst hkeq
            rw [List.get_eq_getElem, List.getElem_append_right (le_refl _)]
            simpa using hci
        · simp [hci]
      · simp only [← he, ← hcw, hmin, if_false] at h
        exact ih _ _ _ _ h hacc hci
    · simp only [hlt, if_false, Option.some.injEq] at h
      subst h
      exact hacc

/-- C8 (amended): `chunk_index` equals the chunk's position within its own
*section's* chunk sequence (it restarts at 0 for each section), and after
`chunk_content`'s second pass, every chunk's `total_chunks` equals the total
number of chunks emitted for the document. -/
theorem chunk_indices_per_section_and_totals :
    (∀ (cfg : ChunkingCfg) (fp : List Char) (chap sec : Option (List Char))
        (hp : List (List Char)) (text : List Char) (cs : List ContentChunk),
      chunk_section cfg fp chap sec hp text = some cs →
      ∀ k (hk : k < cs.length), (cs.get ⟨k, hk⟩).chunk_index = k) ∧
    (∀ (cfg : ChunkingCfg) (content fp : List Char) (fm : Option Frontmatter)
        (out : List ContentChunk),
      chunk_content cfg content fp fm = some out →
      ∀ c ∈ out, c.total_chunks = out.length) := by
  constructor
  · intro cfg fp chap sec hp text cs h k hk
    rw [chunk_section] at h
    by_cases hle : (pyWords text).length ≤ cfg.max_chunk_size
    · simp only [hle, if_true] at h
      by_cases hmin : MIN_CHUNK_WORDS ≤ (pyWords text).length
      · simp only [hmin, if_true, Option.some.injEq] at h
        subst h
        have hk0 : k = 0 := by simpa using hk
        subst hk0
        rfl
      · simp only [hmin, if_false, Option.some.injEq] at h
        subst h
        simp at hk
    · simp only [hle, if_false] at h
      exact chunkSectionGo_indices cfg fp chap sec hp (pyWords text)
        _ _ _ _ _ h (by simp) rfl k hk
  · intro cfg content fp fm out h c hc
    rw [chunk_content] at h
    by_cases hstrip : pyStrip content = []
    · rw [if_pos hstrip] at h
      have h1 : out = [] := by simpa using h.symm
      subst h1
      simp at hc
    · rw [if_neg hstrip] at h
      rw [Option.map_eq_some'] at h
      obtain ⟨css, -, hout⟩ := h
      subst hout
      simp only [List.mem_map] at hc
      obtain ⟨c', -, hc'⟩ := hc
      subst hc'
      rw [List.length_map]

/-- The chunker output for the 62-word single section. -/
def w60SecOut : List ContentChunk :=
  (chunk_section {} "f.md".data none none [] w60).getD []

/-- The chunker output for the two-section document. -/
def twoSecOut : List ContentChunk :=
  (chunk_content {} twoSectionDoc "f.md".data none).getD []

/-- C8 witness: the amended theorem applied at concrete inputs: the single
chunk of a 62-word section sits at position 0 with `chunk_index = 0`, and the
first chunk of the two-section document carries `total_chunks = 2`, the
document's output length. -/
theorem chunk_indices_totals_witness :
    (w60SecOut.map (fun c => c.chunk_index)).head? = some 0 ∧
    (twoSecOut.map (fun c => c.total_chunks)).head? = some 2 := by
  obtain ⟨hidx, htot⟩ := chunk_indices_per_section_and_totals
  constructor
  · have hout : chunk_section {} "f.md".data none none [] w60 = some w60SecOut := by rfl
    have hlen : w60SecOut.length = 1 := by rfl
    have h0 : 0 < w60SecOut.length := by omega
    have h := hidx {} "f.md".data none none [] w60 w60SecOut hout 0 h0
    rw [List.get_eq_getElem] at h
    rw [List.head?_eq_getElem?, List.getElem?_map, List.getElem?_eq_getElem h0]
    simpa using h
  · have hout : chunk_content {} twoSectionDoc "f.md".data none = some twoSecOut := by rfl
    have hlen : twoSecOut.length = 2 := by rfl
    have h0 : 0 < twoSecOut.length := by omega
    have h := htot {} twoSectionDoc "f.md".data none twoSecOut hout
      (twoSecOut.get ⟨0, h0⟩) (List.get_mem twoSecOut 0 h0)
    rw [List.get_eq_getElem] at h
    rw [List.head?_eq_getElem?, List.getElem?_map, List.getElem?_eq_getElem h0]
    simp only [Option.map_some', h, hlen]

/-- C2 witness: the word-bound theorem applied to the concrete 62-word
section, whose single emitted chunk is the raw section text. -/
theorem chunk_word_bounds_witness :
    MIN_CHUNK_WORDS ≤ (pyWords w60).length ∧
      (pyWords w60).length ≤ ({} : ChunkingCfg).max_chunk_size := by
  have h := chunk_section_word_bounds {} "f.md".data none none [] w60
    [⟨w60, "f.md".data, none, none, [], 0, 1⟩] (by rfl)
    ⟨w60, "f.md".data, none, none, [], 0, 1⟩ (by simp)
  simpa using h

/-- C9 counterexample: on the spec's scenario document, even with generous
constructor bounds, both sections fall below the fixed 50-word
`MIN_CHUNK_WORDS` floor (the floor is a module constant, not configurable),
so the heading-aware chunker emits no chunks at all instead of the claimed
two. -/
theorem c9_scenario_fails :
    chunk_content generousCfg c9doc "f.md".data none = some [] := by rfl

/-- C9 (amended): the scenario document with each section padded above the
fixed 50-word floor yields exactly two chunks, the first with heading path
`["A"]` and the second with `["A", "B"]`. -/
theorem c9_scenario_padded :
    ((chunk_content generousCfg c9padded "f.md".data none).getD []).map
        (fun c => c.heading_path) = [["A".data], ["A".data, "B".data]] := by rfl

/-! ### C3: the confidence formula -/

/-- C3: `calculate_confidence` returns exactly 0 for the empty candidate
list, short-circuiting before the formula; for a non-empty list whose scores
lie in the documented `[0, 1]` range and are sorted non-increasingly (the
invariant of retrieval results, making the first element the best
candidate), it returns exactly
`0.6 * top_score + 0.3 * mean + 0.1 * min(count/5, 1)`, the first element is
the maximal score, and the result already lies in `[0, 1]`, so the final
`min(confidence, 1.0)` clamp is the identity. -/
theorem calculate_confidence_spec :
    calculate_confidence [] = 0 ∧
    ∀ (c : RetrievedChunk) (cs : List RetrievedChunk),
      (∀ d ∈ c :: cs, 0 ≤ d.similarity_score ∧ d.similarity_score ≤ 1) →
      List.Sorted (· ≥ ·) ((c :: cs).map (·.similarity_score)) →
      (calculate_confidence (c :: cs) =
          c.similarity_score * (6/10)
            + (((c :: cs).map (·.similarity_score)).sum / (c :: cs).length) * (3/10)
            + min (((c :: cs).length : ℚ) / 5) 1 * (1/10)) ∧
        (∀ d ∈ c :: cs, d.similarity_score ≤ c.similarity_score) ∧
        0 ≤ calculate_confidence (c :: cs) ∧ calculate_confidence (c :: cs) ≤ 1 := by
  refine ⟨rfl, ?_⟩
  intro c cs hrange hsorted
  set l := c :: cs with hl
  set scores := l.map (·.similarity_score) with hscores
  have hn : 0 < (l.length : ℚ) := by
    have h1 : 0 < l.length := by rw [hl]; simp
    exact_mod_cast h1
  have hsum0 : 0 ≤ scores.sum := by
    apply List.sum_nonneg
    intro x hx
    rw [hscores] at hx
    obtain ⟨d, hd, hdx⟩ := List.mem_map.mp hx
    exact hdx ▸ (hrange d hd).1
  have hsum1 : scores.sum ≤ (l.length : ℚ) := by
    have := List.sum_le_card_nsmul scores 1 ?_
    · simpa [hscores] using this
    · intro x hx
      rw [hscores] at hx
      obtain ⟨d, hd, hdx⟩ := List.mem_map.mp hx
      exact hdx ▸ (hrange d hd).2
  have htop0 : 0 ≤ c.similarity_score := (hrange c (by simp [hl])).1
  have htop1 : c.similarity_score ≤ 1 := (hrange c (by simp [hl])).2
  have havg0 : 0 ≤ scores.sum / (l.length : ℚ) := div_nonneg hsum0 hn.le
  have havg1 : scores.sum / (l.length : ℚ) ≤ 1 := by
    rw [div_le_one hn]; exact hsum1
  have hcf0 : 0 ≤ min ((l.length : ℚ) / 5) 1 :=
    le_min (by positivity) (by norm_num)
  have hcf1 : min ((l.length : ℚ) / 5) 1 ≤ 1 := min_le_right _ _
  have hF1 : c.similarity_score * (6/10) + (scores.sum / (l.length : ℚ)) * (3/10)
      + min ((l.length : ℚ) / 5) 1 * (1/10) ≤ 1 := by nlinarith
  have hF0 : 0 ≤ c.similarity_score * (6/10) + (scores.sum / (l.length : ℚ)) * (3/10)
      + min ((l.length : ℚ) / 5) 1 * (1/10) := by nlinarith
  have hcalc : calculate_confidence l = c.similarity_score * (6/10)
      + (scores.sum / (l.length : ℚ)) * (3/10)
      + min ((l.length : ℚ) / 5) 1 * (1/10) := by
    rw [hl, calculate_confidence]
    simp only [← hl, ← hscores]
    exact min_eq_left hF1
  refine ⟨hcalc, ?_, ?_, ?_⟩
  · intro d hd
    have hmem : d.similarity_score ∈ (c :: cs).map (·.similarity_score) :=
      List.mem_map_of_mem _ hd
    rw [List.map_cons] at hmem
    have hs2 : List.Sorted (· ≥ ·)
        (c.similarity_score :: cs.map (·.similarity_score)) := by
      have h2 := hsorted
      rw [hscores, hl, List.map_cons] at h2
      exact h2
    rcases List.mem_cons.mp hmem with h1 | h1
    · exact le_of_eq h1
    · exact (List.sorted_cons.mp hs2).1 _ h1
  · rw [hcalc]; exact hF0
  · rw [hcalc]; exact hF1

/-- Two example retrieval candidates with scores 0.8 and 0.6. -/
def exChunkA : RetrievedChunk :=
  ⟨"a".data, "ta".data, "f".data, none, none, [], "u1".data, 0, 2, 8/10, 1⟩

def exChunkB : RetrievedChunk :=
  ⟨"b".data, "tb".data, "f".data, none, none, [], "u2".data, 1, 2, 6/10, 2⟩

/-- C3 witness: the confidence theorem applied to two candidates with scores
0.8 and 0.6: `0.6*0.8 + 0.3*0.7 + 0.1*(2/5) = 0.73`. -/
theorem calculate_confidence_witness :
    calculate_confidence [exChunkA, exChunkB] = 73/100 := by
  have h := calculate_confidence_spec.2 exChunkA [exChunkB]
    (by
      intro d hd
      rcases List.mem_cons.mp hd with rfl | hd2
      · constructor <;> norm_num [exChunkA]
      · rw [List.mem_singleton] at hd2
        subst hd2
        constructor <;> norm_num [exChunkB])
    (by
      rw [List.map_cons, List.map_cons, List.map_nil]
      refine List.sorted_cons.mpr ⟨?_, List.sorted_singleton _⟩
      intro b hb
      rw [List.mem_singleton] at hb
      subst hb
      norm_num [exChunkA, exChunkB])
  rw [h.1]
  norm_num [exChunkA, exChunkB]

/-! ### C4: rank contiguity and score monotonicity -/

theorem rankHitsFrom_rank (l : List QdrantHit) :
    ∀ r i (hi : i < (rankHitsFrom r l).length),
      ((rankHitsFrom r l).get ⟨i, hi⟩).rank = r + i := by
  induction l with
  | nil => intro r i hi; simp [rankHitsFrom] at hi
  | cons h t ih =>
    intro r i hi
    match i with
    | 0 => rfl
    | i + 1 =>
      have := ih (r + 1) i (by simpa [rankHitsFrom] using hi)
      simpa [rankHitsFrom, Nat.add_assoc, Nat.add_comm 1 i] using this

theorem rankHitsFrom_scores (l : List QdrantHit) :
    ∀ r, (rankHitsFrom r l).map (·.similarity_score) = l.map (·.score) := by
  induction l with
  | nil => intro r; rfl
  | cons h t ih => intro r; simp [rankHitsFrom, hitToChunk, ih]

theorem rerankFrom_rank (l : List RetrievedChunk) :
    ∀ r i (hi : i < (rerankFrom r l).length),
      ((rerankFrom r l).get ⟨i, hi⟩).rank = r + i := by
  induction l with
  | nil => intro r i hi; simp [rerankFrom] at hi
  | cons h t ih =>
    intro r i hi
    match i with
    | 0 => rfl
    | i + 1 =>
      have := ih (r + 1) i (by simpa [rerankFrom] using hi)
      simpa [rerankFrom, Nat.add_assoc, Nat.add_comm 1 i] using this

/-- C4: every successful `retrieve` result has ranks that are exactly the
consecutive integers 1, 2, … in order, and (assuming the vector index
returns its hits sorted by score, which is its contract) the similarity
scores are non-increasing by rank; `retrieve_with_reranking` truncates the
initial pool to `top_k` and reassigns ranks so they are again the
consecutive integers starting at 1. -/
theorem retrieve_rank_invariants :
    (∀ (query : List Char) (k : ℕ) (thr : ℚ) (hits : List QdrantHit)
        (out : List RetrievedChunk),
      retrieve query k thr hits = .ok out →
      (∀ i (hi : i < out.length), (out.get ⟨i, hi⟩).rank = i + 1) ∧
        (List.Sorted (· ≥ ·) (hits.map (·.score)) →
          List.Sorted (· ≥ ·) (out.map (·.similarity_score)))) ∧
    (∀ (query : List Char) (k ik : ℕ) (thr : ℚ) (hits : List QdrantHit)
        (out : List RetrievedChunk),
      retrieve_with_reranking query k ik thr hits = .ok out →
      ∀ i (hi : i < out.length), (out.get ⟨i, hi⟩).rank = i + 1) := by
  have hok : ∀ (query : List Char) (k : ℕ) (thr : ℚ) (hits : List QdrantHit)
      (out : List RetrievedChunk),
      retrieve query k thr hits = .ok out → out = rankHitsFrom 1 hits := by
    intro query k thr hits out h
    rw [retrieve] at h
    split at h
    · exact absurd h (by simp)
    · split at h
      · exact absurd h (by simp)
      · split at h
        · exact absurd h (by simp)
        · simpa using h.symm
  constructor
  · intro query k thr hits out h
    have hout := hok query k thr hits out h
    subst hout
    constructor
    · intro i hi
      rw [rankHitsFrom_rank hits 1 i hi, Nat.add_comm]
    · intro hsorted
      rw [rankHitsFrom_scores hits 1]
      exact hsorted
  · intro query k ik thr hits out h
    rw [retrieve_with_reranking] at h
    cases hret : retrieve query ik thr hits with
    | error e => rw [hret] at h; exact absurd h (by simp [Except.map])
    | ok chunks =>
      rw [hret] at h
      have hout : out = rerankFrom 1 (chunks.take k) := by
        simpa [Except.map] using h.symm
      subst hout
      intro i hi
      rw [rerankFrom_rank _ 1 i hi, Nat.add_comm]

/-- Concrete hits and output used by the C4 witness. -/
def c4hits : List QdrantHit := [{ score := 9/10 }, { score := 8/10 }]

def c4out : List RetrievedChunk := rankHitsFrom 1 c4hits

/-- C4 witness: the invariant theorem applied to a concrete two-hit search:
ranks come out as `[1, 2]`, scores stay sorted, and the reranked
truncation to `top_k = 1` carries rank 1. -/
theorem retrieve_rank_witness :
    retrieve "what is ai".data 3 (1/2) c4hits = .ok c4out ∧
    (c4out.map (fun c => c.rank)).head? = some 1 ∧
    List.Sorted (· ≥ ·) (c4out.map (·.similarity_score)) ∧
    ((rerankFrom 1 (c4out.take 1)).map (fun c => c.rank)).head? = some 1 := by
  have hret : retrieve "what is ai".data 3 (1/2) c4hits = .ok c4out := by
    rw [retrieve]
    rw [if_neg (by decide), if_neg (by norm_num), if_neg (by norm_num)]
    rfl
  have h1 := (retrieve_rank_invariants.1 "what is ai".data 3 (1/2) c4hits c4out hret)
  have hrr : retrieve_with_reranking "what is ai".data 1 3 (1/2) c4hits =
      .ok (rerankFrom 1 (c4out.take 1)) := by
    rw [retrieve_with_reranking, retrieve]
    rw [if_neg (by decide), if_neg (by norm_num), if_neg (by norm_num)]
    rfl
  have h2 := retrieve_rank_invariants.2 "what is ai".data 1 3 (1/2) c4hits _ hrr
  refine ⟨hret, ?_, ?_, ?_⟩
  · have h0 : 0 < c4out.length := by rw [show c4out.length = 2 from rfl]; omega
    have := h1.1 0 h0
    rw [List.get_eq_getElem] at this
    rw [List.head?_eq_getElem?, List.getElem?_map, List.getElem?_eq_getElem h0]
    simpa using this
  · refine h1.2 ?_
    rw [show c4hits.map (·.score) = [9/10, 8/10] from rfl]
    refine List.sorted_cons.mpr ⟨?_, List.sorted_singleton _⟩
    intro b hb
    rw [List.mem_singleton] at hb
    subst hb
    norm_num
  · have h0 : 0 < (rerankFrom 1 (c4out.take 1)).length := by
      rw [show (rerankFrom 1 (c4out.take 1)).length = 1 from rfl]; omega
    have := h2 0 h0
    rw [List.get_eq_getElem] at this
    rw [List.head?_eq_getElem?, List.getElem?_map, List.getElem?_eq_getElem h0]
    simpa using this

/-! ### C7: low-confidence refusal -/

/-- C7: whenever the confidence is below the 0.5 floor or the retrieved
chunk list is empty (and the query passes validation), `generate` returns
the fixed "not enough information" refusal answer with an empty source list,
and the result does not depend on the language-model oracle at all — the
model is never consulted. -/
theorem generate_low_confidence_refusal :
    ∀ (llm llm2 : List Char → List RetrievedChunk → List Char)
      (model query : List Char) (chunks : List RetrievedChunk)
      (confidence : ℚ),
      pyStrip query ≠ [] →
      (confidence < 1/2 ∨ chunks = []) →
      generate llm model query chunks confidence =
          .ok ⟨refusalAnswer, [], confidence, model⟩ ∧
        generate llm model query chunks confidence =
          generate llm2 model query chunks confidence := by
  intro llm llm2 model query chunks conf hq hlow
  have h : ∀ f : List Char → List RetrievedChunk → List Char,
      generate f model query chunks conf =
        .ok ⟨refusalAnswer, [], conf, model⟩ := by
    intro f
    rw [generate, if_neg hq, if_pos hlow]
  exact ⟨h llm, (h llm).trans (h llm2).symm⟩

/-- C7 witness: the refusal theorem at a concrete low-confidence call
(confidence 0.2, one would-be answer oracle): the result is exactly the
refusal response with no sources. -/
theorem generate_refusal_witness :
    generate (fun _ _ => "Robots walk.".data) "gemini-pro".data
        "what is ai".data [] (2/10) =
      .ok ⟨refusalAnswer, [], 2/10, "gemini-pro".data⟩ :=
  (generate_low_confidence_refusal (fun _ _ => "Robots walk.".data)
    (fun _ _ => "Other.".data) "gemini-pro".data "what is ai".data [] (2/10)
    (by decide) (Or.inr rfl)).1

/-! ### C5: citation deduplication by locator -/

/-- Two retrieved chunks sharing the locator URL `"u"` but with different
chapters. -/
def cexA : RetrievedChunk :=
  ⟨"a".data, "ta".data, "f".data, some "A".data, none, [], "u".data,
   0, 2, 9/10, 1⟩

def cexB : RetrievedChunk :=
  ⟨"b".data, "tb".data, "f".data, some "B".data, none, [], "u".data,
   1, 2, 8/10, 2⟩

/-- The citations `_extract_sources` builds for `cexA`/`cexB` before
sorting. -/
def sexA : GSourceCitation := ⟨"A".data, none, "u".data, 9/10⟩

def sexB : GSourceCitation := ⟨"B".data, none, "u".data, 8/10⟩

/-- C5 counterexample: `GenerationService._extract_sources` deduplicates by
the `(chapter, source_url)` pair, not by locator alone: two chunks sharing
the URL `"u"` but with chapters `"A"` and `"B"` yield two citations that
share the same locator, contradicting the claimed one-citation-per-locator
invariant. -/
theorem extract_sources_duplicate_locator :
    (extract_sources [cexA, cexB]).map (fun c => c.source_url) =
      ["u".data, "u".data] := by
  have hbase : extractSourcesGo [] [] [cexA, cexB] = [sexA, sexB] := by rfl
  rw [extract_sources, hbase]
  have hlen : (List.mergeSort [sexA, sexB]
      (fun a b => decide (b.relevance_score ≤ a.relevance_score))).length = 2 := by
    rw [List.length_mergeSort]
    rfl
  obtain ⟨a, b, hab⟩ := List.length_eq_two.mp hlen
  have hurl : ∀ c ∈ List.mergeSort [sexA, sexB]
      (fun a b => decide (b.relevance_score ≤ a.relevance_score)),
      c.source_url = "u".data := by
    intro c hc
    rcases List.mem_cons.mp (List.mem_mergeSort.mp hc) with rfl | hc2
    · rfl
    · rw [List.mem_singleton] at hc2
      subst hc2
      rfl
  have ha := hurl a (by rw [hab]; exact List.mem_cons_self _ _)
  have hb := hurl b (by rw [hab]; simp)
  rw [hab]
  simp [ha, hb]

theorem extractCohereGo_pairwise (chunks : List DocumentChunk)
    (results : List (List Char × ℚ)) (ccs : List CohereCitation) :
    ∀ seen acc,
      (∀ c ∈ acc, c.page_url ∈ seen) →
      acc.Pairwise (fun a b => a.page_url ≠ b.page_url) →
      (extractCohereGo chunks results seen acc ccs).Pairwise
        (fun a b => a.page_url ≠ b.page_url) := by
  induction ccs with
  | nil => intro seen acc _ hp; exact hp
  | cons cc rest ih =>
    intro seen acc hmem hp
    rw [extractCohereGo]
    split
    · exact ih seen acc hmem hp
    · split
      · exact ih seen acc hmem hp
      · split
        · exact ih seen acc hmem hp
        · split
          · exact ih seen acc hmem hp
          · split
            · exact ih seen acc hmem hp
            · next chunk hget hseen =>
              refine ih _ _ ?_ ?_
              · intro c hc
                rcases List.mem_append.mp hc with h1 | h1
                · exact List.mem_cons_of_mem _ (hmem c h1)
                · rw [List.mem_singleton] at h1
                  subst h1
                  exact List.mem_cons_self _ _
              · rw [List.pairwise_append]
                refine ⟨hp, List.pairwise_singleton _ _, ?_⟩
                intro a ha b hb
                rw [List.mem_singleton] at hb
                subst hb
                intro hurl
                apply hseen
                refine List.elem_eq_true_of_mem ?_
                rw [show (citationFromChunk results chunk).page_url =
                  chunk.page_url from rfl] at hurl
                exact hurl ▸ hmem a ha

theorem extractFallbackGo_pairwise (results : List (List Char × ℚ))
    (chunks : List DocumentChunk) :
    ∀ seen acc,
      (∀ c ∈ acc, c.page_url ∈ seen) →
      acc.Pairwise (fun a b => a.page_url ≠ b.page_url) →
      (extractFallbackGo results seen acc chunks).Pairwise
        (fun a b => a.page_url ≠ b.page_url) := by
  induction chunks with
  | nil => intro seen acc _ hp; exact hp
  | cons chunk rest ih =>
    intro seen acc hmem hp
    rw [extractFallbackGo]
    by_cases hseen : seen.contains chunk.page_url
    · simp only [hseen, if_true]
      exact ih seen acc hmem hp
    · simp only [hseen, if_false]
      by_cases hblank : pyStrip (truncate_text chunk.content_text 300 "...".data) = []
      · simp only [hblank, if_pos]
        refine ih _ acc ?_ hp
        intro c hc
        exact List.mem_cons_of_mem _ (hmem c hc)
      · simp only [hblank, if_neg, if_false]
        refine ih _ _ ?_ ?_
        · intro c hc
          rcases List.mem_append.mp hc with h1 | h1
          · exact List.mem_cons_of_mem _ (hmem c h1)
          · rw [List.mem_singleton] at h1
            subst h1
            exact List.mem_cons_self _ _
        · rw [List.pairwise_append]
          refine ⟨hp, List.pairwise_singleton _ _, ?_⟩
          intro a ha b hb
          rw [List.mem_singleton] at hb
          subst hb
          intro hurl
          apply hseen
          refine List.elem_eq_true_of_mem ?_
          have hurl2 : a.page_url = chunk.page_url := hurl
          exact hurl2 ▸ hmem a ha

theorem generateCitationsGo_pairwise (chunks : List AgentChunk) :
    ∀ seen acc,
      (∀ c ∈ acc, c.anchor ∈ seen) →
      acc.Pairwise (fun a b => a.anchor ≠ b.anchor) →
      (generateCitationsGo seen acc chunks).Pairwise
        (fun a b => a.anchor ≠ b.anchor) := by
  induction chunks with
  | nil => intro seen acc _ hp; exact hp
  | cons chunk rest ih =>
    intro seen acc hmem hp
    rw [generateCitationsGo]
    by_cases hseen : seen.contains (chunk.section_anchor.getD [])
    · simp only [hseen, if_true]
      exact ih seen acc hmem hp
    · simp only [hseen, if_false]
      refine ih _ _ ?_ ?_
      · intro c hc
        rcases List.mem_append.mp hc with h1 | h1
        · exact List.mem_cons_of_mem _ (hmem c h1)
        · rw [List.mem_singleton] at h1
          subst h1
          exact List.mem_cons_self _ _
      · rw [List.pairwise_append]
        refine ⟨hp, List.pairwise_singleton _ _, ?_⟩
        intro a ha b hb
        rw [List.mem_singleton] at hb
        subst hb
        intro hurl
        apply hseen
        refine List.elem_eq_true_of_mem ?_
        have hurl2 : a.anchor = chunk.section_anchor.getD [] := hurl
        exact hurl2 ▸ hmem a ha

/-- The chunk a Cohere reference resolves to, independent of the seen-set:
take the first document id, parse it, and look the index up in the supplied
chunk order (`none` when the reference is invalid). -/
def refChunk (chunks : List DocumentChunk) (cc : CohereCitation) :
    Option DocumentChunk :=
  match cc.document_ids with
  | [] => none
  | did :: _ =>
    match parseDocId did with
    | none => none
    | some idx => if idx < 0 then none else chunks[idx.toNat]?

/-- A reference resolving to an already-seen URL is a no-op for the Cohere
loop. -/
theorem extractCohereGo_skip_seen (chunks : List DocumentChunk)
    (results : List (List Char × ℚ)) (cc : CohereCitation) (c : DocumentChunk)
    (hres : refChunk chunks cc = some c) :
    ∀ seen acc rest, c.page_url ∈ seen →
      extractCohereGo chunks results seen acc (cc :: rest) =
        extractCohereGo chunks results seen acc rest := by
  intro seen acc rest hmem
  obtain ⟨dids⟩ := cc
  rw [refChunk] at hres
  rw [extractCohereGo]
  cases dids with
  | nil => rfl
  | cons did tl =>
    simp only at hres ⊢
    split
    · rfl
    · next idx heq =>
      rw [heq] at hres
      simp only at hres
      by_cases hneg : idx < 0
      · rw [if_pos hneg]
      · rw [if_neg hneg] at hres ⊢
        split
        · rfl
        · next chunk heq3 =>
          have hc : chunk = c := by
            rw [heq3] at hres
            exact Option.some.inj hres
          subst hc
          rw [if_pos (List.elem_eq_true_of_mem hmem)]

/-- Dropping a later Cohere reference whose resolved locator duplicates one
resolved by an earlier reference leaves the loop's output unchanged. -/
theorem extractCohereGo_drop_dup (chunks : List DocumentChunk)
    (results : List (List Char × ℚ)) (cc : CohereCitation) (c : DocumentChunk)
    (l2 : List CohereCitation) (hres : refChunk chunks cc = some c) :
    ∀ (l1 : List CohereCitation) (seen : List (List Char))
      (acc : List SourceCitation),
      (c.page_url ∈ seen ∨ ∃ cc0 ∈ l1, ∃ c0,
        refChunk chunks cc0 = some c0 ∧ c0.page_url = c.page_url) →
      extractCohereGo chunks results seen acc (l1 ++ cc :: l2) =
        extractCohereGo chunks results seen acc (l1 ++ l2) := by
  intro l1
  induction l1 with
  | nil =>
    intro seen acc h
    rcases h with h | ⟨cc0, hcc0, -⟩
    · exact extractCohereGo_skip_seen chunks results cc c hres seen acc l2 h
    · simp at hcc0
  | cons p l1 ih =>
    intro seen acc h
    have htrans : ∀ seen2 : List (List Char),
        (∀ u ∈ seen, u ∈ seen2) →
        (∀ cp, refChunk chunks p = some cp → cp.page_url ∈ seen2) →
        (c.page_url ∈ seen2 ∨ ∃ cc0 ∈ l1, ∃ c0,
          refChunk chunks cc0 = some c0 ∧ c0.page_url = c.page_url) := by
      intro seen2 hsub hcp
      rcases h with h0 | ⟨cc0, hcc0, c0, hc0, hurl⟩
      · exact Or.inl (hsub _ h0)
      · rcases List.mem_cons.mp hcc0 with rfl | h2
        · exact Or.inl (hurl ▸ hcp c0 hc0)
        · exact Or.inr ⟨cc0, h2, c0, hc0, hurl⟩
    obtain ⟨dids⟩ := p
    rw [List.cons_append, List.cons_append, extractCohereGo, extractCohereGo]
    cases dids with
    | nil =>
      refine ih seen acc (htrans seen (fun u hu => hu) ?_)
      intro cp hcp
      rw [refChunk] at hcp
      simp at hcp
    | cons did tl =>
      simp only
      split
      · next heq2 =>
        refine ih seen acc (htrans seen (fun u hu => hu) ?_)
        intro cp hcp
        rw [refChunk] at hcp
        simp only at hcp
        rw [heq2] at hcp
        simp at hcp
      · next idx heq2 =>
        by_cases hneg : idx < 0
        · rw [if_pos hneg, if_pos hneg]
          refine ih seen acc (htrans seen (fun u hu => hu) ?_)
          intro cp hcp
          rw [refChunk] at hcp
          simp only at hcp
          rw [heq2] at hcp
          simp only at hcp
          rw [if_pos hneg] at hcp
          simp at hcp
        · rw [if_neg hneg, if_neg hneg]
          split
          · next heq3 =>
            refine ih seen acc (htrans seen (fun u hu => hu) ?_)
            intro cp hcp
            rw [refChunk] at hcp
            simp only at hcp
            rw [heq2] at hcp
            simp only at hcp
            rw [if_neg hneg, heq3] at hcp
            simp at hcp
          · next chunk heq3 =>
            have hrefp : refChunk chunks ⟨did :: tl⟩ = some chunk := by
              rw [refChunk]
              simp only
              rw [heq2]
              simp only
              rw [if_neg hneg, heq3]
            by_cases hseen2 : seen.contains chunk.page_url
            · rw [if_pos hseen2, if_pos hseen2]
              refine ih seen acc (htrans seen (fun u hu => hu) ?_)
              intro cp hcp
              rw [hrefp] at hcp
              rw [← Option.some.inj hcp]
              exact List.mem_of_elem_eq_true hseen2
            · rw [if_neg hseen2, if_neg hseen2]
              refine ih _ _ (htrans (chunk.page_url :: seen)
                (fun u hu => List.mem_cons_of_mem _ hu) ?_)
              intro cp hcp
              rw [hrefp] at hcp
              rw [← Option.some.inj hcp]
              exact List.mem_cons_self _ _

/-- A chunk with an already-seen URL is a no-op for the fallback loop. -/
theorem extractFallbackGo_skip_seen (results : List (List Char × ℚ))
    (c : DocumentChunk) :
    ∀ seen acc rest, c.page_url ∈ seen →
      extractFallbackGo results seen acc (c :: rest) =
        extractFallbackGo results seen acc rest := by
  intro seen acc rest hmem
  rw [extractFallbackGo, if_pos (List.elem_eq_true_of_mem hmem)]

/-- Dropping a later chunk whose URL duplicates an earlier chunk's leaves the
fallback loop's output unchanged. -/
theorem extractFallbackGo_drop_dup (results : List (List Char × ℚ))
    (c : DocumentChunk) (l2 : List DocumentChunk) :
    ∀ (l1 : List DocumentChunk) (seen : List (List Char))
      (acc : List SourceCitation),
      (c.page_url ∈ seen ∨ ∃ c0 ∈ l1, c0.page_url = c.page_url) →
      extractFallbackGo results seen acc (l1 ++ c :: l2) =
        extractFallbackGo results seen acc (l1 ++ l2) := by
  intro l1
  induction l1 with
  | nil =>
    intro seen acc h
    rcases h with h | ⟨c0, hc0, -⟩
    · exact extractFallbackGo_skip_seen results c seen acc l2 h
    · simp at hc0
  | cons p l1 ih =>
    intro seen acc h
    have htrans : ∀ seen2 : List (List Char),
        (∀ u ∈ seen, u ∈ seen2) → p.page_url ∈ seen2 →
        (c.page_url ∈ seen2 ∨ ∃ c0 ∈ l1, c0.page_url = c.page_url) := by
      intro seen2 hsub hp
      rcases h with h0 | ⟨c0, hc0, hurl⟩
      · exact Or.inl (hsub _ h0)
      · rcases List.mem_cons.mp hc0 with rfl | h2
        · exact Or.inl (hurl ▸ hp)
        · exact Or.inr ⟨c0, h2, hurl⟩
    rw [List.cons_append, List.cons_append, extractFallbackGo, extractFallbackGo]
    by_cases hseen2 : seen.contains p.page_url
    · rw [if_pos hseen2, if_pos hseen2]
      exact ih seen acc (htrans seen (fun u hu => hu)
        (List.mem_of_elem_eq_true hseen2))
    · rw [if_neg hseen2, if_neg hseen2]
      by_cases hblank : pyStrip (truncate_text p.content_text 300 "...".data) = []
      · simp only [hblank, if_pos]
        exact ih _ acc (htrans (p.page_url :: seen)
          (fun u hu => List.mem_cons_of_mem _ hu) (List.mem_cons_self _ _))
      · simp only [hblank, if_neg, if_false]
        exact ih _ _ (htrans (p.page_url :: seen)
          (fun u hu => List.mem_cons_of_mem _ hu) (List.mem_cons_self _ _))

/-- A chunk with an already-seen anchor is a no-op for the agent loop. -/
theorem generateCitationsGo_skip_seen (c : AgentChunk) :
    ∀ seen acc rest, c.section_anchor.getD [] ∈ seen →
      generateCitationsGo seen acc (c :: rest) =
        generateCitationsGo seen acc rest := by
  intro seen acc rest hmem
  rw [generateCitationsGo, if_pos (List.elem_eq_true_of_mem hmem)]

/-- Dropping a later agent chunk whose anchor duplicates an earlier chunk's
leaves the agent loop's output unchanged. -/
theorem generateCitationsGo_drop_dup (c : AgentChunk) (l2 : List AgentChunk) :
    ∀ (l1 : List AgentChunk) (seen : List (List Char))
      (acc : List AgentCitation),
      (c.section_anchor.getD [] ∈ seen ∨ ∃ c0 ∈ l1,
        c0.section_anchor.getD [] = c.section_anchor.getD []) →
      generateCitationsGo seen acc (l1 ++ c :: l2) =
        generateCitationsGo seen acc (l1 ++ l2) := by
  intro l1
  induction l1 with
  | nil =>
    intro seen acc h
    rcases h with h | ⟨c0, hc0, -⟩
    · exact generateCitationsGo_skip_seen c seen acc l2 h
    · simp at hc0
  | cons p l1 ih =>
    intro seen acc h
    have htrans : ∀ seen2 : List (List Char),
        (∀ u ∈ seen, u ∈ seen2) → p.section_anchor.getD [] ∈ seen2 →
        (c.section_anchor.getD [] ∈ seen2 ∨ ∃ c0 ∈ l1,
          c0.section_anchor.getD [] = c.section_anchor.getD []) := by
      intro seen2 hsub hp
      rcases h with h0 | ⟨c0, hc0, hurl⟩
      · exact Or.inl (hsub _ h0)
      · rcases List.mem_cons.mp hc0 with rfl | h2
        · exact Or.inl (hurl ▸ hp)
        · exact Or.inr ⟨c0, h2, hurl⟩
    rw [List.cons_append, List.cons_append, generateCitationsGo,
      generateCitationsGo]
    by_cases hseen2 : seen.contains (p.section_anchor.getD [])
    · rw [if_pos hseen2, if_pos hseen2]
      exact ih seen acc (htrans seen (fun u hu => hu)
        (List.mem_of_elem_eq_true hseen2))
    · rw [if_neg hseen2, if_neg hseen2]
      exact ih _ _ (htrans (p.section_anchor.getD [] :: seen)
        (fun u hu => List.mem_cons_of_mem _ hu) (List.mem_cons_self _ _))

/-- Two document chunks sharing the URL `"u"` (the first with the higher
relevance score) and two agent chunks sharing the anchor `"anc"`. -/
def dupA : DocumentChunk := ⟨"cA".data, "ta".data, "u".data, "TA".data⟩

def dupB : DocumentChunk := ⟨"cB".data, "tb".data, "u".data, "TB".data⟩

def dupResults : List (List Char × ℚ) :=
  [("cA".data, 9/10), ("cB".data, 8/10)]

def agA : AgentChunk := ⟨some "DA".data, some "anc".data, some "f.md".data⟩

def agB : AgentChunk := ⟨some "DB".data, some "anc".data, some "g.md".data⟩

/-- C5 (amended): in `RAGService.extract_citations` (both the
generator-reference branch and the all-candidates fallback) no two citations
share the same `page_url`, and in `CitationAgent.generate_citations` no two
citations share the same anchor; in every path the first occurrence is kept
and every later duplicate-locator entry is dropped (removing such an entry
does not change the output, and on concrete duplicate-locator inputs the
single emitted citation carries the first occurrence's data).
`GenerationService._extract_sources`, however, deduplicates by the
`(chapter, source_url)` pair, so its citations may share a locator URL when
their chapters differ (see the counterexample). -/
theorem citations_locator_unique :
    (∀ (chunks : List DocumentChunk) (ccs : List CohereCitation)
        (results : List (List Char × ℚ)),
      (extract_citations chunks ccs results).Pairwise
        (fun a b => a.page_url ≠ b.page_url)) ∧
    (∀ source_chunks : List AgentChunk,
      (generate_citations source_chunks).Pairwise
        (fun a b => a.anchor ≠ b.anchor)) ∧
    (∀ (chunks : List DocumentChunk) (results : List (List Char × ℚ))
        (l1 l2 : List CohereCitation) (cc : CohereCitation)
        (c : DocumentChunk),
      refChunk chunks cc = some c →
      (∃ cc0 ∈ l1, ∃ c0, refChunk chunks cc0 = some c0 ∧
        c0.page_url = c.page_url) →
      extract_citations chunks (l1 ++ cc :: l2) results =
        extract_citations chunks (l1 ++ l2) results) ∧
    (∀ (results : List (List Char × ℚ)) (l1 l2 : List DocumentChunk)
        (c : DocumentChunk),
      (∃ c0 ∈ l1, c0.page_url = c.page_url) →
      extract_citations (l1 ++ c :: l2) [] results =
        extract_citations (l1 ++ l2) [] results) ∧
    (∀ (l1 l2 : List AgentChunk) (c : AgentChunk),
      (∃ c0 ∈ l1, c0.section_anchor.getD [] = c.section_anchor.getD []) →
      generate_citations (l1 ++ c :: l2) = generate_citations (l1 ++ l2)) ∧
    extract_citations [dupA, dupB] [] dupResults =
      [⟨"u".data, "TA".data, "ta".data, 9/10⟩] ∧
    extract_citations [dupA, dupB] [⟨["doc_0".data]⟩, ⟨["doc_1".data]⟩]
        dupResults = [⟨"u".data, "TA".data, "ta".data, 9/10⟩] ∧
    generate_citations [agA, agB] =
      [⟨"DA".data, "anc".data, "/docs/f#anc".data⟩] := by
  refine ⟨?_, ?_, ?_, ?_, ?_, ?_, ?_, ?_⟩
  · intro chunks ccs results
    rw [extract_citations]
    by_cases hne2 : ccs ≠ []
    · rw [if_pos hne2]
      exact extractCohereGo_pairwise chunks results ccs [] [] (by simp) (by simp)
    · rw [if_neg hne2]
      exact extractFallbackGo_pairwise results chunks [] [] (by simp) (by simp)
  · intro source_chunks
    exact generateCitationsGo_pairwise source_chunks [] [] (by simp) (by simp)
  · intro chunks results l1 l2 cc c hres hdup
    have hl1 : l1 ≠ [] := by
      obtain ⟨cc0, hcc0, -⟩ := hdup
      intro h0
      rw [h0] at hcc0
      simp at hcc0
    rw [extract_citations, extract_citations, if_pos (by simp),
      if_pos (by simp [hl1])]
    exact extractCohereGo_drop_dup chunks results cc c l2 hres l1 [] []
      (Or.inr hdup)
  · intro results l1 l2 c hdup
    rw [extract_citations, extract_citations, if_neg (by simp),
      if_neg (by simp)]
    exact extractFallbackGo_drop_dup results c l2 l1 [] [] (Or.inr hdup)
  · intro l1 l2 c hdup
    exact generateCitationsGo_drop_dup c l2 l1 [] [] (Or.inr hdup)
  · rfl
  · rfl
  · simp +decide [generate_citations, generateCitationsGo, agA, agB,
      build_citation_url, pyReplace]

/-- C5 witness: the later-duplicate-drop clauses applied at concrete inputs:
dropping the duplicate-URL reference `doc_1`, the duplicate-URL chunk
`dupB`, and the duplicate-anchor agent chunk `agB` leaves each output
unchanged. -/
theorem citations_locator_unique_witness :
    extract_citations [dupA, dupB] [⟨["doc_0".data]⟩, ⟨["doc_1".data]⟩]
        dupResults =
      extract_citations [dupA, dupB] [⟨["doc_0".data]⟩] dupResults ∧
    extract_citations [dupA, dupB] [] dupResults =
      extract_citations [dupA] [] dupResults ∧
    generate_citations [agA, agB] = generate_citations [agA] := by
  obtain ⟨-, -, hco, hfb, hag, -, -, -⟩ := citations_locator_unique
  refine ⟨?_, ?_, ?_⟩
  · have h := hco [dupA, dupB] dupResults [⟨["doc_0".data]⟩] []
      ⟨["doc_1".data]⟩ dupB (by rfl)
      ⟨⟨["doc_0".data]⟩, by simp, dupA, by rfl, by rfl⟩
    simpa using h
  · have h := hfb dupResults [dupA] [] dupB ⟨dupA, by simp, by rfl⟩
    simpa using h
  · have h := hag [agA] [] agB ⟨agA, by simp, by rfl⟩
    simpa using h

/-! ### C6: generator-reference resolution -/

/-- A Cohere reference the extraction loop skips regardless of its state:
empty `document_ids`, an unparseable first id, or a parsed index matching no
supplied chunk. -/
def isInvalidRef (chunks : List DocumentChunk) (cc : CohereCitation) : Bool :=
  match cc.document_ids with
  | [] => true
  | did :: _ =>
    match parseDocId did with
    | none => true
    | some idx => decide (idx < 0) || chunks[idx.toNat]?.isNone

theorem extractCohereGo_skip (chunks : List DocumentChunk)
    (results : List (List Char × ℚ)) (cc : CohereCitation)
    (h : isInvalidRef chunks cc = true) :
    ∀ seen acc rest,
      extractCohereGo chunks results seen acc (cc :: rest) =
        extractCohereGo chunks results seen acc rest := by
  intro seen acc rest
  obtain ⟨dids⟩ := cc
  rw [isInvalidRef] at h
  rw [extractCohereGo]
  cases dids with
  | nil => rfl
  | cons did tl =>
    simp only at h ⊢
    split
    · rfl
    · next idx heq =>
      rw [heq] at h
      simp only [Bool.or_eq_true, decide_eq_true_iff, Option.isNone_iff_eq_none] at h
      rcases h with h1 | h1
      · rw [if_pos h1]
      · by_cases hn : idx < 0
        · rw [if_pos hn]
        · rw [if_neg hn, h1]

theorem extractCohereGo_erase_invalid (chunks : List DocumentChunk)
    (results : List (List Char × ℚ)) (cc : CohereCitation)
    (post : List CohereCitation) (hcc : isInvalidRef chunks cc = true) :
    ∀ (pre : List CohereCitation) seen acc,
      extractCohereGo chunks results seen acc (pre ++ cc :: post) =
        extractCohereGo chunks results seen acc (pre ++ post) := by
  intro pre
  induction pre with
  | nil =>
    intro seen acc
    exact extractCohereGo_skip chunks results cc hcc seen acc post
  | cons p pre ih =>
    intro seen acc
    rw [List.cons_append, List.cons_append, extractCohereGo, extractCohereGo]
    split
    · exact ih seen acc
    · split
      · exact ih seen acc
      · split
        · exact ih seen acc
        · split
          · exact ih seen acc
          · split
            · exact ih seen acc
            · exact ih _ _

/-- The three candidates, two references and score table of the spec's C6
scenario (distinct locators `u0`, `u1`, `u2`). -/
def c6chunks : List DocumentChunk :=
  [⟨"c0".data, "text0".data, "u0".data, "T0".data⟩,
   ⟨"c1".data, "text1".data, "u1".data, "T1".data⟩,
   ⟨"c2".data, "text2".data, "u2".data, "T2".data⟩]

def c6refs : List CohereCitation := [⟨["doc_0".data]⟩, ⟨["doc_2".data]⟩]

def c6results : List (List Char × ℚ) :=
  [("c0".data, 9/10), ("c1".data, 8/10), ("c2".data, 7/10)]

/-- C6: in the generator-reference branch, each reference `doc_N` resolves to
the candidate at position `N` of the supplied order; any invalid or
unparseable reference is skipped without error — removing it from the
reference list (as long as references remain) leaves the citation list
unchanged — and the scenario `["doc_0", "doc_2"]` against three candidates
with distinct locators yields exactly the two citations for candidates 0 and
2, in that order. -/
theorem extract_citations_ref_mapping :
    (∀ (chunks : List DocumentChunk) (results : List (List Char × ℚ))
        (pre post : List CohereCitation) (cc : CohereCitation),
      pre ++ post ≠ [] →
      isInvalidRef chunks cc = true →
      extract_citations chunks (pre ++ cc :: post) results =
        extract_citations chunks (pre ++ post) results) ∧
    extract_citations c6chunks c6refs c6results =
      [⟨"u0".data, "T0".data, "text0".data, 9/10⟩,
       ⟨"u2".data, "T2".data, "text2".data, 7/10⟩] := by
  constructor
  · intro chunks results pre post cc hne hcc
    rw [extract_citations, extract_citations]
    rw [if_pos (by simp), if_pos hne]
    exact extractCohereGo_erase_invalid chunks results cc post hcc pre [] []
  · rfl

/-- C6 witness: appending the invalid reference `doc_9` (index out of range
for three candidates) to the scenario's reference list leaves the extraction
result unchanged. -/
theorem extract_citations_ref_witness :
    extract_citations c6chunks (c6refs ++ [⟨["doc_9".data]⟩]) c6results =
      extract_citations c6chunks c6refs c6results := by
  have h := extract_citations_ref_mapping.1 c6chunks c6results c6refs []
    ⟨["doc_9".data]⟩ (by decide) (by rfl)
  simpa using h

/-! ### C10: idempotence of `generate_anchor` -/

/-- The characters an anchor may contain: ASCII lowercase letters, digits,
and the hyphen. -/
def anchorChar (c : Char) : Prop :=
  (97 ≤ c.toNat ∧ c.toNat ≤ 122) ∨ (48 ≤ c.toNat ∧ c.toNat ≤ 57) ∨ c = '-'

theorem char_toNat_ofNat {n : ℕ} (h : n < 55296) : (Char.ofNat n).toNat = n := by
  unfold Char.ofNat
  rw [dif_pos (Or.inl h)]
  unfold Char.ofNatAux Char.toNat
  show (UInt32.mk (BitVec.ofNatLt n _)).toNat = n
  simp [UInt32.toNat, BitVec.toNat_ofNatLt]

theorem char_beq_false {c d : Char} (h : c.toNat ≠ d.toNat) : (c == d) = false := by
  rw [beq_eq_false_iff_ne]
  intro he
  exact h (he ▸ rfl)

theorem pyIsSpace_toNat {c : Char} (h : pyIsSpace c = true) :
    c.toNat = 32 ∨ c.toNat = 9 ∨ c.toNat = 10 ∨ c.toNat = 13 ∨
      c.toNat = 11 ∨ c.toNat = 12 := by
  rw [pyIsSpace] at h
  simp only [Bool.or_eq_true, beq_iff_eq] at h
  rcases h with ((((h | h) | h) | h) | h) | h <;> subst h <;> decide

theorem isMdFormatChar_toNat {c : Char} (h : isMdFormatChar c = true) :
    c.toNat = 42 ∨ c.toNat = 96 ∨ c.toNat = 95 ∨ c.toNat = 126 := by
  rw [isMdFormatChar] at h
  simp only [Bool.or_eq_true, beq_iff_eq] at h
  rcases h with ((h | h) | h) | h <;> subst h <;> decide

theorem anchorChar_toNat {c : Char} (h : anchorChar c) :
    (97 ≤ c.toNat ∧ c.toNat ≤ 122) ∨ (48 ≤ c.toNat ∧ c.toNat ≤ 57) ∨
      c.toNat = 45 := by
  rcases h with h | h | h
  · exact Or.inl h
  · exact Or.inr (Or.inl h)
  · subst h; right; right; rfl

theorem anchorChar_not_space {c : Char} (h : anchorChar c) :
    pyIsSpace c = false := by
  by_cases hsp : pyIsSpace c = true
  · exfalso
    have h1 := pyIsSpace_toNat hsp
    have h2 := anchorChar_toNat h
    omega
  · simpa using hsp

theorem anchorChar_not_md {c : Char} (h : anchorChar c) :
    isMdFormatChar c = false := by
  by_cases hmd : isMdFormatChar c = true
  · exfalso
    have h1 := isMdFormatChar_toNat hmd
    have h2 := anchorChar_toNat h
    omega
  · simpa using hmd

theorem anchorChar_keep {c : Char} (h : anchorChar c) :
    (isAsciiAlphaNum c || pyIsSpace c || c == '-') = true := by
  rcases h with h | h | h
  · have h1 : isAsciiAlphaNum c = true := by
      rw [isAsciiAlphaNum]
      simp only [Bool.or_eq_true, Bool.and_eq_true, decide_eq_true_iff]
      left; right; exact h
    simp [h1]
  · have h1 : isAsciiAlphaNum c = true := by
      rw [isAsciiAlphaNum]
      simp only [Bool.or_eq_true, Bool.and_eq_true, decide_eq_true_iff]
      right; exact h
    simp [h1]
  · subst h; decide

theorem anchorChar_lower_fix {c : Char} (h : anchorChar c) : pyToLower c = c := by
  rw [pyToLower, if_neg]
  have h2 := anchorChar_toNat h
  omega

/-- Characters of `subRuns p r l`: the replacement character or a
`p`-negative character of `l`. -/
theorem subRuns_mem (p : Char → Bool) (r : Char) :
    ∀ l, ∀ c ∈ subRuns p r l, c = r ∨ (c ∈ l ∧ p c = false) := by
  intro l
  induction l using subRuns.induct p r with
  | case1 => intro c hc; simp [subRuns] at hc
  | case2 c cs hp ih =>
    intro d hd
    rw [subRuns, if_pos hp] at hd
    rcases List.mem_cons.mp hd with rfl | hd2
    · exact Or.inl rfl
    · rcases ih d hd2 with h1 | ⟨h1, h2⟩
      · exact Or.inl h1
      · exact Or.inr ⟨List.mem_cons_of_mem _ ((List.dropWhile_suffix p).subset h1), h2⟩
  | case3 c cs hp ih =>
    intro d hd
    rw [subRuns, if_neg hp] at hd
    rcases List.mem_cons.mp hd with rfl | hd2
    · exact Or.inr ⟨List.mem_cons_self _ _, by simpa using hp⟩
    · rcases ih d hd2 with h1 | ⟨h1, h2⟩
      · exact Or.inl h1
      · exact Or.inr ⟨List.mem_cons_of_mem _ h1, h2⟩

/-- `subRuns` is the identity on lists without `p`-characters. -/
theorem subRuns_eq_self (p : Char → Bool) (r : Char) :
    ∀ l, (∀ c ∈ l, p c = false) → subRuns p r l = l := by
  intro l
  induction l with
  | nil => intro _; simp [subRuns]
  | cons c cs ih =>
    intro h
    rw [subRuns, if_neg (by simp [h c (List.mem_cons_self _ _)])]
    rw [ih (fun d hd => h d (List.mem_cons_of_mem _ hd))]

theorem subRuns_head_not (p : Char → Bool) (r : Char) (m : List Char)
    (hm : ∀ x, m.head? = some x → p x = false) :
    ∀ c, (subRuns p r m).head? = some c → p c = false := by
  intro c hc
  cases m with
  | nil => simp [subRuns] at hc
  | cons d ds =>
    have hd : p d = false := hm d rfl
    rw [subRuns, if_neg (by simp [hd])] at hc
    simp only [List.head?_cons, Option.some.injEq] at hc
    exact hc ▸ hd

/-- No two adjacent characters of `subRuns p r l` both satisfy `p`. -/
theorem subRuns_chain (p : Char → Bool) (r : Char) :
    ∀ l, (subRuns p r l).Chain' (fun a b => ¬(p a = true ∧ p b = true)) := by
  intro l
  induction l using subRuns.induct p r with
  | case1 => simp [subRuns]
  | case2 c cs hp ih =>
    rw [subRuns, if_pos hp]
    rw [List.chain'_cons']
    refine ⟨?_, ih⟩
    intro b hb
    have hpb : p b = false := by
      refine subRuns_head_not p r _ ?_ b hb
      intro x hx
      have := List.head?_dropWhile_not p cs
      rw [hx] at this
      exact this
    intro hcon
    rw [hpb] at hcon
    exact Bool.false_ne_true hcon.2
  | case3 c cs hp ih =>
    rw [subRuns, if_neg hp]
    rw [List.chain'_cons']
    refine ⟨?_, ih⟩
    intro b _
    intro hcon
    exact hp hcon.1

/-- `subRuns` is the identity when every `p`-character is already `r` and no
two `p`-characters are adjacent. -/
theorem subRuns_eq_self_of_chain (p : Char → Bool) (r : Char) :
    ∀ m, (∀ c ∈ m, p c = true → c = r) →
      m.Chain' (fun a b => ¬(p a = true ∧ p b = true)) →
      subRuns p r m = m := by
  intro m
  induction m with
  | nil => intro _ _; simp [subRuns]
  | cons c cs ih =>
    intro hall hch
    by_cases hp : p c = true
    · rw [subRuns, if_pos hp]
      have hcr : c = r := hall c (List.mem_cons_self _ _) hp
      have hdrop : cs.dropWhile p = cs := by
        cases cs with
        | nil => rfl
        | cons d ds =>
          have hrel := (List.chain'_cons'.mp hch).1 d rfl
          have hpd : p d = false := by
            by_contra hpd
            exact hrel ⟨hp, by simpa using hpd⟩
          exact List.dropWhile_cons_of_neg (by simp [hpd])
      rw [hdrop, hcr]
      rw [ih (fun d hd hpd => hall d (List.mem_cons_of_mem _ hd) hpd)
        (List.chain'_cons'.mp hch).2]
    · rw [subRuns, if_neg hp]
      rw [ih (fun d hd hpd => hall d (List.mem_cons_of_mem _ hd) hpd)
        (List.chain'_cons'.mp hch).2]

theorem map_eq_self_of {f : Char → Char} {l : List Char}
    (h : ∀ c ∈ l, f c = c) : l.map f = l := by
  induction l with
  | nil => rfl
  | cons c cs ih =>
    rw [List.map_cons, h c (List.mem_cons_self _ _),
      ih (fun d hd => h d (List.mem_cons_of_mem _ hd))]

/-- `pyStripChar r l` is an infix of `l`. -/
theorem pyStripChar_infixOfSelf (r : Char) (l : List Char) :
    pyStripChar r l <:+: l := by
  have h1 : l.dropWhile (· == r) <:+ l := List.dropWhile_suffix _
  have h2 : (l.dropWhile (· == r)).reverse.dropWhile (· == r) <:+
      (l.dropWhile (· == r)).reverse := List.dropWhile_suffix _
  have h3 : pyStripChar r l <+: l.dropWhile (· == r) := by
    rw [pyStripChar]
    rw [← List.reverse_suffix]
    simpa using h2
  exact List.IsInfix.trans (List.IsPrefix.isInfix h3) (List.IsSuffix.isInfix h1)

theorem pyStripChar_subset (r : Char) (l : List Char) :
    ∀ c ∈ pyStripChar r l, c ∈ l :=
  fun _ hc => List.IsInfix.subset (pyStripChar_infixOfSelf r l) hc

theorem suffix_getLast? {l₁ l₂ : List Char} (h : l₁ <:+ l₂) (hne : l₁ ≠ []) :
    l₁.getLast? = l₂.getLast? := by
  obtain ⟨t, rfl⟩ := h
  rw [List.getLast?_append]
  cases hl : l₁.getLast? with
  | none => exact absurd (List.getLast?_eq_none_iff.mp hl) hne
  | some c => rfl

theorem pyStripChar_head (r : Char) (l : List Char) :
    ∀ c, (pyStripChar r l).head? = some c → (c == r) = false := by
  intro c hc
  rw [pyStripChar, List.head?_reverse] at hc
  set B := (l.dropWhile (· == r)).reverse.dropWhile (· == r) with hB
  have hBne : B ≠ [] := by
    intro h0
    rw [h0] at hc
    simp at hc
  have h1 : B.getLast? = (l.dropWhile (· == r)).reverse.getLast? :=
    suffix_getLast? (List.dropWhile_suffix _) hBne
  rw [h1, List.getLast?_reverse] at hc
  have h2 := List.head?_dropWhile_not (· == r) l
  rw [hc] at h2
  exact h2

theorem pyStripChar_getLast (r : Char) (l : List Char) :
    ∀ c, (pyStripChar r l).getLast? = some c → (c == r) = false := by
  intro c hc
  rw [pyStripChar, List.getLast?_reverse] at hc
  have h2 := List.head?_dropWhile_not (· == r) (l.dropWhile (· == r)).reverse
  rw [hc] at h2
  exact h2

theorem pyStripChar_eq_self (r : Char) (l : List Char)
    (hh : ∀ c, l.head? = some c → (c == r) = false)
    (hl : ∀ c, l.getLast? = some c → (c == r) = false) :
    pyStripChar r l = l := by
  have h1 : l.dropWhile (· == r) = l := by
    cases l with
    | nil => rfl
    | cons c cs => exact List.dropWhile_cons_of_neg (by simp [hh c rfl])
  rw [pyStripChar, h1]
  have h2 : l.reverse.dropWhile (· == r) = l.reverse := by
    cases hrev : l.reverse with
    | nil => rfl
    | cons c cs =>
      refine List.dropWhile_cons_of_neg ?_
      have : l.getLast? = some c := by
        rw [← List.head?_reverse, hrev]
        rfl
      simp [hl c this]
  rw [h2, List.reverse_reverse]

/-- Every character of a generated anchor is a lowercase ASCII letter, a
digit, or a hyphen. -/
theorem generate_anchor_chars (h : List Char) :
    ∀ c ∈ generate_anchor h, anchorChar c := by
  intro c hc
  have hc5 := pyStripChar_subset '-' _ c hc
  rcases subRuns_mem _ '-' _ c hc5 with rfl | ⟨hc4, hq⟩
  · exact Or.inr (Or.inr rfl)
  · rcases subRuns_mem pyIsSpace '-' _ c hc4 with rfl | ⟨hc3, hws⟩
    · exact Or.inr (Or.inr rfl)
    · obtain ⟨d, hd2, hdc⟩ := List.mem_map.mp hc3
      have hkeep := (List.mem_filter.mp hd2).2
      simp only [Bool.or_eq_true] at hkeep
      rcases hkeep with (halnum | hsp) | hhy
      · rw [isAsciiAlphaNum] at halnum
        simp only [Bool.or_eq_true, Bool.and_eq_true, decide_eq_true_iff] at halnum
        rcases halnum with (⟨h1, h2⟩ | ⟨h1, h2⟩) | ⟨h1, h2⟩
        · left
          rw [← hdc, pyToLower, if_pos ⟨h1, h2⟩, char_toNat_ofNat (by omega)]
          omega
        · left
          rw [← hdc, pyToLower, if_neg (by omega)]
          exact ⟨h1, h2⟩
        · right; left
          rw [← hdc, pyToLower, if_neg (by omega)]
          exact ⟨h1, h2⟩
      · exfalso
        have hd_toNat : d.toNat = 32 ∨ d.toNat = 9 ∨ d.toNat = 10 ∨
            d.toNat = 13 ∨ d.toNat = 11 ∨ d.toNat = 12 := by
          rw [pyIsSpace] at hsp
          simp only [Bool.or_eq_true, beq_iff_eq] at hsp
          rcases hsp with ((((h1 | h1) | h1) | h1) | h1) | h1 <;>
            rw [h1] <;> simp [char_toNat_ofNat]
        have hlow : pyToLower d = d := by
          rw [pyToLower, if_neg (by omega)]
        rw [← hdc, hlow] at hws
        rw [hws] at hsp
        exact Bool.false_ne_true hsp
      · right; right
        rw [beq_iff_eq] at hhy
        subst hhy
        rw [← hdc]
        decide

/-- C10: `generate_anchor` is idempotent: its output consists only of
lowercase alphanumerics and single hyphens with no leading or trailing
hyphen, a form every pass of the function maps to itself. -/
theorem generate_anchor_idempotent :
    ∀ h : List Char, generate_anchor (generate_anchor h) = generate_anchor h := by
  intro h
  have hchars := generate_anchor_chars h
  have hexp : generate_anchor h =
      pyStripChar '-' (subRuns (· == '-') '-' (subRuns pyIsSpace '-'
        (((h.filter (fun c => !(isMdFormatChar c))).filter
          (fun c => isAsciiAlphaNum c || pyIsSpace c || c == '-')).map
            pyToLower))) := rfl
  have hchain : (generate_anchor h).Chain'
      (fun a b => ¬((a == '-') = true ∧ (b == '-') = true)) := by
    rw [hexp]
    exact List.Chain'.infix (subRuns_chain (· == '-') '-' _) (pyStripChar_infixOfSelf '-' _)
  have hhead : ∀ c, (generate_anchor h).head? = some c → (c == '-') = false := by
    rw [hexp]; exact pyStripChar_head '-' _
  have hlast : ∀ c, (generate_anchor h).getLast? = some c → (c == '-') = false := by
    rw [hexp]; exact pyStripChar_getLast '-' _
  show pyStripChar '-' (subRuns (· == '-') '-' (subRuns pyIsSpace '-'
      ((((generate_anchor h).filter (fun c => !(isMdFormatChar c))).filter
        (fun c => isAsciiAlphaNum c || pyIsSpace c || c == '-')).map
          pyToLower))) = generate_anchor h
  rw [show (generate_anchor h).filter (fun c => !(isMdFormatChar c)) =
      generate_anchor h from List.filter_eq_self.mpr
    (fun c hc => by simp [anchorChar_not_md (hchars c hc)])]
  rw [show (generate_anchor h).filter
      (fun c => isAsciiAlphaNum c || pyIsSpace c || c == '-') =
      generate_anchor h from
    List.filter_eq_self.mpr (fun c hc => anchorChar_keep (hchars c hc))]
  rw [show (generate_anchor h).map pyToLower = generate_anchor h from
    map_eq_self_of (fun c hc => anchorChar_lower_fix (hchars c hc))]
  rw [subRuns_eq_self pyIsSpace '-' (generate_anchor h)
    (fun c hc => anchorChar_not_space (hchars c hc))]
  rw [subRuns_eq_self_of_chain (· == '-') '-' (generate_anchor h)
    (fun c _ hc => by rwa [beq_iff_eq] at hc) hchain]
  exact pyStripChar_eq_self '-' _ hhead hlast

/-- C1: the claim states that the `_force_split` fallback halts and returns a
finite chunk sequence for every non-empty input.  The code contradicts this:
on the delimiter-free 900-character input `'a' * 900` (which
`_recursive_split` routes to `_force_split` after exhausting all five
delimiters), the loop variable steps `0 → 700 → 800 → 800 → …` because
`start = end - chunk_overlap` is also executed on the final partial window, so
the loop never terminates: the fuelled model returns `none` for every fuel
bound.  (Default configuration `max_chunk_size = 800`, `chunk_overlap = 100`.) -/
theorem force_split_diverges_on_degenerate_input :
    ∀ fuel, force_split 800 100 (List.replicate 900 'a') fuel = none := by
  intro fuel
  match fuel with
  | 0 => rfl
  | 1 =>
    rw [force_split, forceSplitGo]
    simp only [List.length_replicate]
    norm_num
    rw [forceSplitGo]
  | (n + 2) =>
    rw [force_split, forceSplitGo]
    simp only [List.length_replicate]
    norm_num
    rw [forceSplitGo]
    simp only [List.length_replicate]
    norm_num
    exact forceSplitGo_stuck n _

end RAGSpec
